import Mathlib

/-!
Verification of microsoft/typescript-server-harness (src/index.ts).

The development shallowly embeds the three subsystems the claims are about:
the stdout frame decoder (`makeListeners`, byte-stream branch), the
request/response correlator (`handleMessage` / `getResponse`), and the process
lifecycle operations (`message`, `exitOrKill`, `kill`), plus `bumpDebugPort`.
Bytes are modelled as `Nat` values (< 256); JavaScript values reaching
`handleMessage` are modelled by `JVal` below.
-/

namespace TSH

/-- Decidable equality for `Except` results (used to state concrete runs). -/
instance instDecEqExcept {ε α : Type} [DecidableEq ε] [DecidableEq α] :
    DecidableEq (Except ε α) := fun x y =>
  match x, y with
  | .ok a, .ok b =>
    if h : a = b then .isTrue (by rw [h]) else .isFalse (by simp [h])
  | .error a, .error b =>
    if h : a = b then .isTrue (by rw [h]) else .isFalse (by simp [h])
  | .ok _, .error _ => .isFalse (by simp)
  | .error _, .ok _ => .isFalse (by simp)

mutual
/-- Model of the JavaScript values that `JSON.parse` can return, plus
`undefined` (which property access can produce).  The protocol's messages are
objects of strings / integers / nested objects; JSON arrays and non-integral
numbers do not occur in any input considered here and are omitted from the
model.  `JFields` is the (ordered) field list of an object. -/
inductive JVal where
  | vundefined : JVal
  | vnull : JVal
  | vbool : Bool → JVal
  | vnum : Int → JVal
  | vstr : String → JVal
  | vobj : JFields → JVal
  deriving DecidableEq

inductive JFields where
  | nil : JFields
  | cons : String → JVal → JFields → JFields
  deriving DecidableEq
end

/-- Last-wins field lookup: JavaScript object literals / `JSON.parse` keep the
last occurrence of a duplicated key (the protocol's messages never duplicate
keys, so first-wins would agree on every input considered here). -/
def lookupLast (fs : JFields) (k : String) : Option JVal :=
  match fs with
  | .nil => none
  | .cons k0 v rest =>
    match lookupLast rest k with
    | some w => some w
    | none => if k0 = k then some v else none

/-- JavaScript truthiness for the modelled values.  Objects are always truthy;
`undefined`, `null`, `false`, `0` and the empty string are falsy. -/
def truthy : JVal → Bool
  | .vundefined => false
  | .vnull => false
  | .vbool b => b
  | .vnum n => n ≠ 0
  | .vstr s => s ≠ ""
  | .vobj _ => true

/-- Errors a JavaScript evaluation step can throw in the modelled code. -/
inductive JsErr where
  /-- `TypeError`: property access on `undefined` or `null`. -/
  | typeError : JsErr
  deriving DecidableEq

/-- Property access `v.k`: objects yield the field (or `undefined` when the
field is absent); `null`/`undefined` throw a `TypeError`; primitive values box
and yield `undefined` for the property names the harness reads. -/
def getProp (v : JVal) (k : String) : Except JsErr JVal :=
  match v with
  | .vobj fs => .ok ((lookupLast fs k).getD .vundefined)
  | .vnull => .error .typeError
  | .vundefined => .error .typeError
  | _ => .ok .vundefined

/-! ### JSON.parse

`JSON.parse` is an external collaborator (Node's standard library); the model
below implements it for the fragment of JSON the protocol exchanges: objects,
strings without escape sequences, integer numbers, `true`/`false`/`null`, and
insignificant whitespace.  Its input is the byte slice the decoder hands to
`JSON.parse` (all inputs considered in the theorems are ASCII, so byte and
character positions agree).  It returns `none` exactly where `JSON.parse`
would throw a `SyntaxError` on this fragment. -/

/-- ASCII decimal digit test on a byte. -/
def isDigitB (b : Nat) : Bool := 48 ≤ b && b ≤ 57

/-- Decimal value of a digit-byte string (most significant first). -/
def digitsToNat (ds : List Nat) : Nat :=
  ds.foldl (fun a d => a * 10 + (d - 48)) 0

/-- Drop leading JSON whitespace (space, tab, LF, CR). -/
def skipWs : List Nat → List Nat
  | [] => []
  | b :: r => if b = 32 || b = 9 || b = 10 || b = 13 then skipWs r else b :: r

/-- Read a JSON string body (no escapes) up to the closing quote. -/
def takeStr : List Nat → Option (String × List Nat)
  | [] => none
  | b :: r =>
    if b = 34 then some ("", r)
    else if b = 92 then none
    else
      match takeStr r with
      | some (s, rest) => some (⟨Char.ofNat b :: s.data⟩, rest)
      | none => none

mutual
/-- Parse one JSON value (fuel-indexed recursive descent). -/
def parseValue : Nat → List Nat → Option (JVal × List Nat)
  | 0, _ => none
  | fuel + 1, s =>
    match skipWs s with
    | [] => none
    | b :: r =>
      if b = 123 then
        match skipWs r with
        | 125 :: r2 => some (.vobj .nil, r2)
        | r1 => (parseFields fuel r1).map (fun (fs, rest) => (.vobj fs, rest))
      else if b = 34 then
        (takeStr r).map (fun (str, rest) => (.vstr str, rest))
      else if b = 110 then
        match r with
        | 117 :: 108 :: 108 :: rest => some (.vnull, rest)
        | _ => none
      else if b = 116 then
        match r with
        | 114 :: 117 :: 101 :: rest => some (.vbool true, rest)
        | _ => none
      else if b = 102 then
        match r with
        | 97 :: 108 :: 115 :: 101 :: rest => some (.vbool false, rest)
        | _ => none
      else if b = 45 then
        match r.takeWhile isDigitB, r.dropWhile isDigitB with
        | [], _ => none
        | ds, rest => some (.vnum (-(digitsToNat ds : Int)), rest)
      else if isDigitB b then
        match (b :: r).takeWhile isDigitB, (b :: r).dropWhile isDigitB with
        | ds, rest => some (.vnum (digitsToNat ds : Int), rest)
      else none

/-- Parse the members of a JSON object after its opening brace (the empty
object was already handled by the caller). -/
def parseFields : Nat → List Nat → Option (JFields × List Nat)
  | 0, _ => none
  | fuel + 1, s =>
    match skipWs s with
    | 34 :: r =>
      match takeStr r with
      | none => none
      | some (k, r1) =>
        match skipWs r1 with
        | 58 :: r2 =>
          match parseValue fuel r2 with
          | none => none
          | some (v, r3) =>
            match skipWs r3 with
            | 44 :: r4 =>
              (parseFields fuel r4).map (fun (fs, rest) => (.cons k v fs, rest))
            | 125 :: r4 => some (.cons k v .nil, r4)
            | _ => none
        | _ => none
    | _ => none
end

/-- `JSON.parse` on a byte slice: one value, optionally surrounded by
whitespace, consuming the whole input. -/
def jsonParse (s : List Nat) : Option JVal :=
  match parseValue (s.length + 1) s with
  | some (v, rest) => if skipWs rest = [] then some v else none
  | none => none

/-! ### Frame decoder

Embedding of the byte-stream branch of `makeListeners` (src/index.ts lines
100-132).  The source keeps `unconsumedChunks : Buffer[]` together with
`unconsumedByteLength`, but every use first materialises
`Buffer.concat(unconsumedChunks, unconsumedByteLength)`, and after a frame is
consumed the list is reset to at most one buffer, so the state is equivalent
to the single byte list kept here.  `headerByteLength` and
`currentByteLength` are JavaScript numbers that can be negative, hence `Int`.
The scan for the `Content-Length` header and for the opening brace runs over
`buffer.toString("utf8")` in the source with character indices used as byte
offsets ("All single-byte characters"); every buffer scanned in the theorems
below is ASCII up to the opening brace, where the two coincide, so the model
scans bytes directly. -/

/-- Decoder state: unconsumed bytes plus the two header-tracking numbers
(`-1` = "awaiting header"). -/
structure DecState where
  buf : List Nat
  headerByteLength : Int
  currentByteLength : Int
  deriving DecidableEq

/-- Initial decoder state. -/
def initDec : DecState := ⟨[], -1, -1⟩

/-- Fatal conditions of a `data` callback run. -/
inductive DecErr where
  /-- `JSON.parse` threw a `SyntaxError` on the sliced text; the exception
  propagates out of the `data` listener. -/
  | jsonError : DecErr
  /-- Modelling artefact: the fuel bound was reached.  The bound chosen in
  `onData` is never reached (each loop iteration that does not exit consumes
  at least one byte in every run considered). -/
  | fuelExhausted : DecErr
  deriving DecidableEq

/-- The bytes of `"Content-Length: "` (16 ASCII bytes). -/
def hdrBytes : List Nat :=
  [67, 111, 110, 116, 101, 110, 116, 45, 76, 101, 110, 103, 116, 104, 58, 32]

/-- If `pre` is a prefix of `cs`, return the remainder. -/
def dropPre? : List Nat → List Nat → Option (List Nat)
  | [], cs => some cs
  | _ :: _, [] => none
  | p :: ps, c :: cs => if p = c then dropPre? ps cs else none

/-- Try the regex `Content-Length: (\d+)` at the start of `buf`: on success,
the match length and the numeric value of the (maximal) digit run. -/
def headerMatchAt (buf : List Nat) : Option (Nat × Nat) :=
  match dropPre? hdrBytes buf with
  | none => none
  | some r =>
    match r.takeWhile isDigitB with
    | [] => none
    | ds => some (16 + ds.length, digitsToNat ds)

/-- Leftmost match of `Content-Length: (\d+)` in `buf`:
`(index, match length, value)`. -/
def findHeader : List Nat → Option (Nat × Nat × Nat)
  | [] => none
  | b :: tl =>
    match headerMatchAt (b :: tl) with
    | some (ml, n) => some (0, ml, n)
    | none => (findHeader tl).map (fun x => (x.1 + 1, x.2.1, x.2.2))

/-- Index of the first occurrence of `target` in a byte list. -/
def scanIdx (target : Nat) : List Nat → Option Nat
  | [] => none
  | b :: r => if b = target then some 0 else (scanIdx target r).map (· + 1)

/-- `text.indexOf(target, start)`: first index `≥ start` holding `target`,
or `-1`. -/
def indexOfFrom (target : Nat) (buf : List Nat) (start : Nat) : Int :=
  match scanIdx target (buf.drop start) with
  | some i => ((start + i : Nat) : Int)
  | none => -1

/-- `buffer.toString("utf8", start, end)` as a byte slice (Node clamps:
`start ≤ 0 → 0`, `start ≥ len → ""`, `end > len → len`, `end ≤ start → ""`). -/
def jsToStringSlice (buf : List Nat) (start endI : Int) : List Nat :=
  let len : Int := buf.length
  let s : Int := if start ≤ 0 then 0 else if start ≥ len then len else start
  let e : Int := if endI > len then len else endI
  if e ≤ s then [] else (buf.take e.toNat).drop s.toNat

/-- `buffer.subarray(start)` (a negative `start` counts from the end). -/
def jsSubarrayFrom (buf : List Nat) (start : Int) : List Nat :=
  let len : Int := buf.length
  let s : Int := if start < 0 then max 0 (len + start) else min start len
  buf.drop s.toNat

/-- The `while (true)` dispatch loop of the `data` listener.  One iteration:
if no header has been located, scan for it (no match ⇒ break), then locate
the body start (`indexOf("{", ...)`) and the total frame length
`headerByteLength + bodyByteLength + (os.EOL.length - 1)`; if fewer bytes
than the frame length are buffered, return; otherwise slice, `JSON.parse`,
drop the consumed prefix, reset the header state and continue.  (When
`currentByteLength` is negative and the parse of the clamped slice somehow
succeeded, the source corrupts its byte accounting — `unconsumedByteLength`
grows while `subarray` keeps a suffix; no run considered in this file reaches
that situation, since the clamped slice then starts at byte 0 of a header and
`JSON.parse` rejects it.) -/
def decLoop (eolLen : Nat) : Nat → List Nat → Int → Int → List JVal →
    Except DecErr (DecState × List JVal)
  | 0, _, _, _, _ => .error .fuelExhausted
  | fuel + 1, buf, hbl0, cbl0, acc =>
    let scan : Option (Int × Int) :=
      if hbl0 < 0 then
        match findHeader buf with
        | none => none
        | some (idx, ml, n) =>
          let h := indexOfFrom 123 buf (idx + ml)
          some (h, h + (n : Int) + ((eolLen : Int) - 1))
      else some (hbl0, cbl0)
    match scan with
    | none => .ok (⟨buf, hbl0, cbl0⟩, acc)
    | some (hbl, cbl) =>
      if (buf.length : Int) < cbl then .ok (⟨buf, hbl, cbl⟩, acc)
      else
        match jsonParse (jsToStringSlice buf hbl cbl) with
        | none => .error .jsonError
        | some v =>
          let buf' := if 0 < (buf.length : Int) - cbl then jsSubarrayFrom buf cbl else []
          decLoop eolLen fuel buf' (-1) (-1) (acc ++ [v])

/-- One `data` callback: append the chunk and run the dispatch loop;
returns the new state and the objects passed to `handleMessage`, in order. -/
def onData (eolLen : Nat) (st : DecState) (chunk : List Nat) :
    Except DecErr (DecState × List JVal) :=
  let buf := st.buf ++ chunk
  decLoop eolLen (buf.length + 1) buf st.headerByteLength st.currentByteLength []

/-- Feed a list of chunks in arrival order, collecting all decoded objects. -/
def runChunks (eolLen : Nat) : DecState → List (List Nat) →
    Except DecErr (DecState × List JVal)
  | st, [] => .ok (st, [])
  | st, c :: cs =>
    match onData eolLen st c with
    | .error e => .error e
    | .ok r1 =>
      match runChunks eolLen r1.1 cs with
      | .error e => .error e
      | .ok r2 => .ok (r2.1, r1.2 ++ r2.2)

/-! ### Well-formed frames

A frame on the wire, as the decoder expects it: the ASCII header
`Content-Length: `, a digit run, a separator (in practice `\r\n\r\n`), and
then the slice the decoder extracts — `N + os.EOL.length - 1` bytes starting
at the body's opening brace (tsserver's `N` counts the JSON text plus one
newline byte; on a two-byte-EOL platform the actual trailing terminator is one
byte longer than counted). -/

/-- A wire frame, split into the pieces the decoder's scan distinguishes. -/
structure Frame where
  digits : List Nat
  sep : List Nat
  slice : List Nat
  deriving DecidableEq

/-- The declared `Content-Length` value. -/
def Frame.n (f : Frame) : Nat := digitsToNat f.digits

/-- Byte offset of the body's opening brace within the frame. -/
def Frame.bodyOff (f : Frame) : Nat := 16 + f.digits.length + f.sep.length

/-- The frame's bytes. -/
def Frame.bytes (f : Frame) : List Nat := hdrBytes ++ f.digits ++ f.sep ++ f.slice

/-- Well-formedness of a frame for a platform whose `os.EOL` has `eolLen`
bytes: a nonempty digit run, a nonempty separator that starts with a
non-digit and contains no opening brace, a slice that starts with the opening
brace, has exactly `n + (eolLen - 1)` bytes, and parses as JSON. -/
def wfFrame (eolLen : Nat) (f : Frame) : Bool :=
  !f.digits.isEmpty && f.digits.all isDigitB &&
  (match f.sep.head? with | some b => !isDigitB b | none => false) &&
  f.sep.all (fun b => b ≠ 123) &&
  (match f.slice.head? with | some b => b = 123 | none => false) &&
  (f.slice.length = f.n + (eolLen - 1)) &&
  (jsonParse f.slice).isSome

/-- The decoded object of a well-formed frame. -/
def parseOf (f : Frame) : JVal := (jsonParse f.slice).getD .vnull

/-- The byte stream of a frame sequence. -/
def streamB (fs : List Frame) : List Nat := (fs.map Frame.bytes).flatten

/-- The decoder state after all complete frames have been consumed and `p`
bytes of the next frame (if any) have arrived: the header is located once the
buffer reaches past the body's opening brace, and cannot have been located
while the buffer held at most the 16 header-name bytes. -/
def quiesce (fsR : List Frame) (p : List Nat) : DecState :=
  match fsR with
  | [] => ⟨p, -1, -1⟩
  | f :: _ =>
    if p.length ≤ 16 then ⟨p, -1, -1⟩
    else ⟨p, (f.bodyOff : Int), (f.bytes.length : Int)⟩

/-- A partially delivered next frame the decoder handles correctly: a proper
prefix that either stops within the 16 header-name bytes or extends past the
body's opening brace. -/
def PrefSafe (fsR : List Frame) (p : List Nat) : Prop :=
  match fsR with
  | [] => p = []
  | f :: _ => p <+: f.bytes ∧ p.length < f.bytes.length ∧
      (p.length ≤ 16 ∨ f.bodyOff < p.length)

/-- Is a byte position `d` (measured from the start of the remaining stream
`fs`) a safe place for a chunk boundary?  Within a frame it must fall within
the 16 header-name bytes or strictly after the body's opening brace. -/
def safeSplitPos : List Frame → Nat → Bool
  | [], _ => true
  | f :: fs, d =>
    if f.bytes.length ≤ d then safeSplitPos fs (d - f.bytes.length)
    else decide (d ≤ 16) || decide (f.bodyOff < d)

/-- All cumulative chunk boundaries of `cs`, starting `base` bytes into the
stream of `fs`, are safe. -/
def goodCuts (fs : List Frame) : Nat → List (List Nat) → Bool
  | _, [] => true
  | base, c :: cs =>
    safeSplitPos fs (base + c.length) && goodCuts fs (base + c.length) cs

/-! ### Correlator

Embedding of `handleMessage` / `getResponse` (src/index.ts lines 135-168).
`waiters : Map<number, (obj) => void>` and `objects : Map<number, any>` are
modelled as insertion-ordered association lists keyed by the JavaScript value
used as the key (normally a number, but `obj.body.request_seq` can evaluate to
`undefined` or any other value, which `Map` happily uses as a key).  A waiter
is identified by the id of the promise whose `resolve` it holds; resolving is
recorded in the returned `resolutions` list.  Event listeners are identified
by numbers; a broadcast delivers to each of them in registration order. -/

/-- `Map.get`: the value at the first (unique) matching key. -/
def mapGet (m : List (JVal × α)) (k : JVal) : Option α :=
  match m with
  | [] => none
  | (k0, v) :: rest => if k0 = k then some v else mapGet rest k

/-- `Map.set`: replace in place, or append a new entry. -/
def mapSet (m : List (JVal × α)) (k : JVal) (v : α) : List (JVal × α) :=
  match m with
  | [] => [(k, v)]
  | (k0, v0) :: rest =>
    if k0 = k then (k0, v) :: rest else (k0, v0) :: mapSet rest k v

/-- `Map.delete`. -/
def mapDel (m : List (JVal × α)) (k : JVal) : List (JVal × α) :=
  match m with
  | [] => []
  | (k0, v0) :: rest => if k0 = k then rest else (k0, v0) :: mapDel rest k

/-- Correlator state: the pending-waiter map and the buffered-object map. -/
structure CorrState where
  waiters : List (JVal × Nat)
  objects : List (JVal × JVal)
  deriving DecidableEq

/-- The empty correlator state. -/
def corrInit : CorrState := ⟨[], []⟩

/-- Result of one `handleMessage` call: the new state, the `(listener, obj)`
deliveries made to event listeners, and the `(promise id, obj)` waiter
resolutions performed. -/
structure HMOut where
  st : CorrState
  deliveries : List (Nat × JVal)
  resolutions : List (Nat × JVal)
  deriving DecidableEq

/-- The guard `obj.type === "event" && obj.event !== "requestCompleted"`
(left-to-right, short-circuit, property access can throw). -/
def broadcastGuard (obj : JVal) : Except JsErr Bool :=
  match getProp obj "type" with
  | .error e => .error e
  | .ok t =>
    if t = .vstr "event" then
      match getProp obj "event" with
      | .error e => .error e
      | .ok ev => .ok (decide (ev ≠ .vstr "requestCompleted"))
    else .ok false

/-- `obj.type === "event" ? obj.body.request_seq : obj.request_seq`.
(`getProp obj "type"` is pure, so re-evaluating it here is equivalent to the
source reading `obj.type` once.) -/
def requestSeqOf (obj : JVal) : Except JsErr JVal :=
  match getProp obj "type" with
  | .error e => .error e
  | .ok t =>
    if t = .vstr "event" then
      match getProp obj "body" with
      | .error e => .error e
      | .ok b => getProp b "request_seq"
    else getProp obj "request_seq"

/-- `handleMessage(obj)`: broadcast events go to every listener; everything
else is routed by its request sequence number — resolve the registered waiter
if there is one, else buffer the object. -/
def handleMessage (listeners : List Nat) (st : CorrState) (obj : JVal) :
    Except JsErr HMOut :=
  match broadcastGuard obj with
  | .error e => .error e
  | .ok true => .ok ⟨st, listeners.map (fun l => (l, obj)), []⟩
  | .ok false =>
    match requestSeqOf obj with
    | .error e => .error e
    | .ok rs =>
      match mapGet st.waiters rs with
      | some pid => .ok ⟨⟨mapDel st.waiters rs, st.objects⟩, [], [(pid, obj)]⟩
      | none => .ok ⟨⟨st.waiters, mapSet st.objects rs obj⟩, [], []⟩

/-- `getResponse(seq)` (the function `message` awaits): if a buffered object
exists for `seq` — `if (obj)` is a JavaScript truthiness test — remove and
resolve with it immediately (`some obj`); otherwise register the promise's
resolver as a waiter (`none`). -/
def getResponse (st : CorrState) (pid : Nat) (seq : Int) :
    CorrState × Option JVal :=
  match mapGet st.objects (.vnum seq) with
  | some obj =>
    if truthy obj then (⟨st.waiters, mapDel st.objects (.vnum seq)⟩, some obj)
    else (⟨mapSet st.waiters (.vnum seq) pid, st.objects⟩, none)
  | none => (⟨mapSet st.waiters (.vnum seq) pid, st.objects⟩, none)

/-- An interleaving step against the correlator: a decoded object delivered by
`handleMessage`, or an `awaitResponse` registration (a `getResponse` call). -/
inductive Act where
  | deliver : JVal → Act
  | awaitR : Nat → Int → Act
  deriving DecidableEq

/-- Apply one action.  A `handleMessage` that throws leaves the maps unchanged
(the `TypeError` is raised before any map mutation). -/
def stepAct (listeners : List Nat) (st : CorrState) : Act → CorrState
  | .deliver obj =>
    match handleMessage listeners st obj with
    | .ok out => out.st
    | .error _ => st
  | .awaitR pid seq => (getResponse st pid seq).1

/-- Run a sequence of interleaved actions from a state. -/
def runActs (listeners : List Nat) (st : CorrState) : List Act → CorrState
  | [] => st
  | a :: rest => runActs listeners (stepAct listeners st a) rest

/-! ### Process lifecycle

Embedding of `message` (lines 171-193), `kill` (lines 217-232) and
`exitOrKill` (lines 195-215).  The child-process handle is reduced to the four
flags the code reads; the result of `serverProc.kill("SIGKILL")` (signal
deliverability) is an external parameter. -/

/-- The fields of `cp.ChildProcess` the harness reads. -/
structure ProcHandle where
  connected : Bool
  killed : Bool
  exitCode : Option Int
  signalCode : Option String
  deriving DecidableEq

/-- What was handed to the transport: `serverProc.send(request)` in
node-ipc mode, or `JSON.stringify(request) + "\n"` written to stdin. -/
inductive Wire where
  | ipc : JVal → Wire
  | stdinLine : JVal → Wire
  deriving DecidableEq

/-- Outcome of a `message(request)` call, up to the point where it either
throws, resolves immediately (for the `exit` command), or suspends on
`getResponse(seq)`. -/
inductive MsgOutcome where
  /-- Threw `Error("Server has exited")`; nothing was written. -/
  | serverExited : MsgOutcome
  /-- A property read on the request itself threw; nothing was written. -/
  | jsError : JsErr → MsgOutcome
  /-- The request was handed to the transport; `awaited = none` for the
  `exit` command (resolves immediately), else the awaited sequence value. -/
  | sent : Wire → Option JVal → MsgOutcome
  deriving DecidableEq

/-- `message(serverProc, useNodeIpc, getResponse, request)`. -/
def message (proc : ProcHandle) (useNodeIpc : Bool) (request : JVal) :
    MsgOutcome :=
  if !proc.connected || proc.killed || proc.exitCode ≠ none
      || proc.signalCode ≠ none then
    .serverExited
  else
    match getProp request "seq" with
    | .error e => .jsError e
    | .ok seqv =>
      let w : Wire := if useNodeIpc then .ipc request else .stdinLine request
      match getProp request "command" with
      | .error e => .jsError e
      | .ok cmd =>
        if cmd = .vstr "exit" then .sent w none else .sent w (some seqv)

/-- How the promise returned by `kill()` settles. -/
inductive KillOutcome where
  /-- The handle already carried an exit or signal code: resolved at once
  (a later `reject` from a failed signal is a no-op). -/
  | resolvedImmediately : KillOutcome
  /-- The process was still live and `serverProc.kill("SIGKILL")` returned
  `false`: rejected with `Error("Failed to send kill signal to server")`. -/
  | rejectedKillFailed : KillOutcome
  /-- Signal sent; resolves when the `close` event fires. -/
  | resolvesOnClose : KillOutcome
  deriving DecidableEq

/-- `kill(serverProc)`: subscribe to `close`, resolve at once if the process
already shows an exit/signal code, then send `SIGKILL` and reject if that
fails.  `killSignalOk` is what `serverProc.kill("SIGKILL")` returns. -/
def kill (proc : ProcHandle) (killSignalOk : Bool) : KillOutcome :=
  if proc.exitCode ≠ none || proc.signalCode ≠ none then .resolvedImmediately
  else if !killSignalOk then .rejectedKillFailed
  else .resolvesOnClose

/-! The `exitOrKill` race (lines 195-215) is modelled as a state machine fed
the externally scheduled occurrences: the process's single `close` event and
the timer's firing.  A cleared or already-fired timer cannot fire (modelled as
a no-op step, the semantics of `clearTimeout` / one-shot timers), and the
`once`-subscription consumes the first `close`.  The timeout callback is
`async`: it sets `timedOut`, awaits `kill`, then resolves `false`; when that
`kill` rejects, the callback dies with an unhandled rejection and the
`resolve(false)` is never reached — `exitOrKill`'s own promise is not
rejected, since its `reject` is wired only to the initial `message` send.
A succeeding `kill` is collapsed to an immediate `resolve(false)` (in the
source the resolution waits for `kill`'s promise; the settled value and the
kill count are unchanged by that delay).  The initial exit-command send is
assumed to succeed; its failure path (`.catch(reject)`) is outside every
claim considered here. -/

/-- The `exitOrKill` promise/timer state. -/
structure EKState where
  timedOut : Bool
  timerActive : Bool
  closeConsumed : Bool
  resolveCalls : List Bool
  killInvocations : Nat
  killRejected : Bool
  deriving DecidableEq

/-- State before any event. -/
def ekInit : EKState :=
  ⟨false, true, false, [], 0, false⟩

/-- Externally scheduled occurrences. -/
inductive EKEvent where
  | closeFires : EKEvent
  | timerFires : EKEvent
  deriving DecidableEq

/-- One occurrence.  `ko` is how the `kill` awaited in the timeout branch
settles. -/
def ekStep (ko : KillOutcome) (st : EKState) : EKEvent → EKState
  | .closeFires =>
    if st.closeConsumed then st
    else
      let st1 := { st with closeConsumed := true }
      if st1.timedOut then st1
      else { st1 with timerActive := false,
                      resolveCalls := st1.resolveCalls ++ [true] }
  | .timerFires =>
    if !st.timerActive then st
    else
      let st1 := { st with timerActive := false, timedOut := true,
                           killInvocations := st.killInvocations + 1 }
      match ko with
      | .rejectedKillFailed => { st1 with killRejected := true }
      | _ => { st1 with resolveCalls := st1.resolveCalls ++ [false] }

/-- Run `exitOrKill` against a schedule of occurrences. -/
def runEK (ko : KillOutcome) (st : EKState) : List EKEvent → EKState
  | [] => st
  | e :: rest => runEK ko (ekStep ko st e) rest

/-! ### Debug-port bumping and `launchServer` wiring

Embedding of `bumpDebugPort` (lines 86-91): the anchored regex
`^(--inspect(?:-brk)?)(?:=(\d+))?$`.  The port value is modelled with exact
natural-number arithmetic; JavaScript's `+match[2] + 1` computes in binary64,
which agrees for every port below 2^53. -/

/-- `['-','-','i','n','s','p','e','c','t']`. -/
def insChars : List Char :=
  ['-', '-', 'i', 'n', 's', 'p', 'e', 'c', 't']

/-- `insChars` followed by `['-','b','r','k']`. -/
def brkChars : List Char := insChars ++ ['-', 'b', 'r', 'k']

/-- ASCII decimal digit test on a character. -/
def isDigitCh (c : Char) : Bool := '0' ≤ c && c ≤ '9'

/-- Decimal value of a digit-character string. -/
def digitsChToNat (ds : List Char) : Nat :=
  ds.foldl (fun a c => a * 10 + (c.toNat - 48)) 0

/-- If `pre` is a prefix of `cs`, return the remainder. -/
def dropPreCh? : List Char → List Char → Option (List Char)
  | [], cs => some cs
  | _ :: _, [] => none
  | p :: ps, c :: cs => if p = c then dropPreCh? ps cs else none

/-- The `(?:=(\d+))?$` part: the remainder after `--inspect(-brk)` must be
empty (no captured port) or `=` followed by one or more digits. -/
def portTail? (rest : List Char) : Option (Option (List Char)) :=
  match rest with
  | [] => some none
  | c :: ds =>
    if c = '=' then
      if !ds.isEmpty && ds.all isDigitCh then some (some ds) else none
    else none

/-- The full anchored regex: the matched alternative and the optional captured
digit run.  Greedy `(?:-brk)?` tries `-brk` first; when `--inspect-brk` is a
prefix but the tail fails, the backtracked plain-`--inspect` attempt leaves a
tail starting with `-`, which also fails, so ordered matching is faithful. -/
def argMatch? (cs : List Char) : Option (List Char × Option (List Char)) :=
  match dropPreCh? brkChars cs with
  | some rest => (portTail? rest).map (fun p => (brkChars, p))
  | none =>
    match dropPreCh? insChars cs with
    | some rest => (portTail? rest).map (fun p => (insChars, p))
    | none => none

/-- `bumpDebugPort(arg)`: `--inspect(-brk)=P ↦ --inspect(-brk)=P+1`,
`--inspect(-brk) ↦ --inspect(-brk)=9230`, anything else unchanged.
(`match[2]` is a nonempty digit string whenever present, hence truthy.) -/
def bumpDebugPort (arg : String) : String :=
  match argMatch? arg.toList with
  | none => arg
  | some (pre, none) => ⟨pre ++ '=' :: ['9', '2', '3', '0']⟩
  | some (pre, some ds) =>
    ⟨pre ++ '=' :: (Nat.repr (digitsChToNat ds + 1)).toList⟩

/-- The `execArgv` passed to `cp.fork` by `launchServer`:
`execArgv ?? process.execArgv?.map(arg => bumpDebugPort(arg))`. -/
def execArgvChosen (explicit : Option (List String))
    (parentExecArgv : List String) : List String :=
  match explicit with
  | some xs => xs
  | none => parentExecArgv.map bumpDebugPort

/-! ### Concrete frames used in counterexamples and witnesses

`tsserver` announces `Content-Length: 3` for the body `{}` (two bytes of JSON
plus the one newline byte it always counts), sends `\r\n\r\n` after the
header, and terminates the body with `os.EOL`: one byte (`\n`) on a one-byte-
EOL platform, two bytes (`\r\n`) on a two-byte-EOL platform. -/

/-- The frame `Content-Length: 3\r\n\r\n{}\n` (one-byte-EOL platform). -/
def fLin : Frame := ⟨[51], [13, 10, 13, 10], [123, 125, 10]⟩

/-- The frame `Content-Length: 3\r\n\r\n{}\r\n` (two-byte-EOL platform). -/
def fWin : Frame := ⟨[51], [13, 10, 13, 10], [123, 125, 13, 10]⟩

/-- `{type: "event", event: "requestCompleted", body: {}}` — a completion
event whose body carries no `request_seq`. -/
def evNoSeq : JVal :=
  .vobj (.cons "type" (.vstr "event")
    (.cons "event" (.vstr "requestCompleted")
      (.cons "body" (.vobj .nil) .nil)))

/-- `{type: "event", event: "requestCompleted"}` — a completion event with no
`body` field at all. -/
def evNoBody : JVal :=
  .vobj (.cons "type" (.vstr "event")
    (.cons "event" (.vstr "requestCompleted") .nil))

/-! ## Theorems

First, general facts about the decoder's scan and consume steps, leading to
the chunk-split analysis; then the claims. -/

theorem dropPre?_append (xs r : List Nat) : dropPre? xs (xs ++ r) = some r := by
  induction xs with
  | nil => rfl
  | cons x xs ih => simp [dropPre?, ih]

theorem dropPre?_length {xs cs r : List Nat} (h : dropPre? xs cs = some r) :
    cs.length = xs.length + r.length := by
  induction xs generalizing cs with
  | nil => cases cs <;> simp_all [dropPre?]
  | cons x xs ih =>
    cases cs with
    | nil => simp [dropPre?] at h
    | cons c cs =>
      simp only [dropPre?] at h
      by_cases hx : x = c
      · simp only [hx, if_pos rfl] at h
        have := ih h
        simp [this]
        omega
      · simp [hx] at h

theorem takeWhile_all_append {p : Nat → Bool} {xs : List Nat} (ys : List Nat)
    (h : xs.all p) : (xs ++ ys).takeWhile p = xs ++ ys.takeWhile p := by
  induction xs with
  | nil => simp
  | cons x xs ih =>
    simp only [List.all_cons, Bool.and_eq_true] at h
    simp [List.takeWhile_cons, h.1, ih h.2]

theorem takeWhile_neg_head {p : Nat → Bool} {y : Nat} (ys : List Nat)
    (h : p y = false) : (y :: ys).takeWhile p = [] := by
  simp [List.takeWhile_cons, h]

/-- The header matcher on a buffer that starts with a full header: the match
length and the digit-run value. -/
theorem headerMatchAt_wire {digits sep : List Nat} (tail : List Nat)
    (hd : digits ≠ []) (hall : digits.all isDigitB)
    (hs : ∃ s0 s', sep = s0 :: s' ∧ isDigitB s0 = false) :
    headerMatchAt (hdrBytes ++ (digits ++ (sep ++ tail)))
      = some (16 + digits.length, digitsToNat digits) := by
  obtain ⟨s0, s', hsep, hs0⟩ := hs
  have h1 : dropPre? hdrBytes (hdrBytes ++ (digits ++ (sep ++ tail)))
      = some (digits ++ (sep ++ tail)) := dropPre?_append _ _
  have h2 : (digits ++ (sep ++ tail)).takeWhile isDigitB = digits := by
    rw [takeWhile_all_append _ hall, hsep, List.cons_append,
      takeWhile_neg_head _ hs0, List.append_nil]
  cases digits with
  | nil => exact absurd rfl hd
  | cons d ds => simp only [headerMatchAt, h1, h2]

/-- Buffers of at most 16 bytes can not match the header anywhere. -/
theorem headerMatchAt_short {buf : List Nat} (h : buf.length ≤ 16) :
    headerMatchAt buf = none := by
  unfold headerMatchAt
  cases hdp : dropPre? hdrBytes buf with
  | none => rfl
  | some r =>
    have hlen := dropPre?_length hdp
    have : r = [] := by
      have : hdrBytes.length = 16 := rfl
      rw [this] at hlen
      cases r with
      | nil => rfl
      | cons a as => simp at hlen; omega
    subst this
    rfl

theorem findHeader_short {buf : List Nat} (h : buf.length ≤ 16) :
    findHeader buf = none := by
  induction buf with
  | nil => rfl
  | cons b tl ih =>
    unfold findHeader
    rw [headerMatchAt_short h, ih (by simpa using Nat.le_of_succ_le h)]
    rfl

theorem findHeader_of_matchAt {buf : List Nat} {ml n : Nat}
    (h : headerMatchAt buf = some (ml, n)) :
    findHeader buf = some (0, ml, n) := by
  cases buf with
  | nil => simp [headerMatchAt, dropPre?, hdrBytes] at h
  | cons b tl => unfold findHeader; rw [h]

theorem scanIdx_append_first {t : Nat} {xs : List Nat} (ys : List Nat)
    (hxs : ∀ x ∈ xs, x ≠ t) :
    scanIdx t (xs ++ t :: ys) = some xs.length := by
  induction xs with
  | nil => simp [scanIdx]
  | cons x xs ih =>
    have hx : x ≠ t := hxs x (by simp)
    show scanIdx t (x :: (xs ++ t :: ys)) = some (x :: xs).length
    unfold scanIdx
    rw [if_neg hx, ih (fun a ha => hxs a (by simp [ha]))]
    rfl

/-- Locating the opening brace from the end of the header match. -/
theorem indexOfFrom_wire {digits sep : List Nat} (tail' : List Nat)
    (hsep : ∀ b ∈ sep, b ≠ 123) :
    indexOfFrom 123 (hdrBytes ++ (digits ++ (sep ++ (123 :: tail'))))
        (16 + digits.length)
      = ((16 + digits.length + sep.length : Nat) : Int) := by
  have hlen : (hdrBytes ++ digits).length = 16 + digits.length := by
    simp [hdrBytes]
    omega
  have hbuf : hdrBytes ++ (digits ++ (sep ++ (123 :: tail')))
      = (hdrBytes ++ digits) ++ (sep ++ 123 :: tail') := by simp
  unfold indexOfFrom
  rw [hbuf, List.drop_left' hlen, scanIdx_append_first tail' hsep]

/-- Unpacked well-formedness facts. -/
theorem wf_parts {eolLen : Nat} {f : Frame} (hwf : wfFrame eolLen f = true) :
    f.digits ≠ [] ∧ f.digits.all isDigitB = true ∧
    (∃ s0 s', f.sep = s0 :: s' ∧ isDigitB s0 = false) ∧
    (∀ b ∈ f.sep, b ≠ 123) ∧ (∃ sl', f.slice = 123 :: sl') ∧
    f.slice.length = f.n + (eolLen - 1) ∧ (jsonParse f.slice).isSome = true := by
  unfold wfFrame at hwf
  simp only [Bool.and_eq_true] at hwf
  obtain ⟨⟨⟨⟨⟨⟨hd, hall⟩, hsep0⟩, hsep123⟩, hsl⟩, hlen⟩, hparse⟩ := hwf
  refine ⟨?_, hall, ?_, ?_, ?_, by exact_mod_cast of_decide_eq_true hlen, hparse⟩
  · simpa using hd
  · cases hs : f.sep with
    | nil => rw [hs] at hsep0; simp at hsep0
    | cons s0 s' =>
      rw [hs] at hsep0
      simp only [List.head?_cons] at hsep0
      exact ⟨s0, s', rfl, by simpa using hsep0⟩
  · intro b hb
    have := List.all_eq_true.mp hsep123 b hb
    simpa using this
  · cases hs : f.slice with
    | nil => rw [hs] at hsl; simp at hsl
    | cons b sl' =>
      rw [hs] at hsl
      simp only [List.head?_cons] at hsl
      exact ⟨sl', by rw [of_decide_eq_true hsl]⟩

/-- `f.bytes` regrouped for the scan lemmas. -/
theorem bytes_assoc (f : Frame) (rest : List Nat) :
    f.bytes ++ rest
      = hdrBytes ++ (f.digits ++ (f.sep ++ (f.slice ++ rest))) := by
  simp [Frame.bytes]

theorem hdrBytes_length : hdrBytes.length = 16 := rfl

theorem bodyOff_pre_length (f : Frame) :
    (hdrBytes ++ f.digits ++ f.sep).length = f.bodyOff := by
  simp [Frame.bodyOff, hdrBytes_length]
  omega

theorem bytes_length {eolLen : Nat} {f : Frame}
    (hwf : wfFrame eolLen f = true) :
    f.bytes.length = f.bodyOff + f.n + (eolLen - 1) := by
  obtain ⟨_, _, _, _, _, hlen, _⟩ := wf_parts hwf
  simp [Frame.bytes, Frame.bodyOff, hdrBytes_length, hlen]
  omega

theorem bodyOff_lt_length {eolLen : Nat} {f : Frame}
    (hwf : wfFrame eolLen f = true) : f.bodyOff < f.bytes.length := by
  obtain ⟨_, _, _, _, ⟨sl', hsl⟩, _, _⟩ := wf_parts hwf
  have : f.bytes.length = f.bodyOff + f.slice.length := by
    have := bodyOff_pre_length f
    simp [Frame.bytes, Frame.bodyOff, hdrBytes_length]
    omega
  rw [this, hsl]
  simp

theorem bodyOff_ge {eolLen : Nat} {f : Frame} (hwf : wfFrame eolLen f = true) :
    18 ≤ f.bodyOff := by
  obtain ⟨hd, _, ⟨s0, s', hsep, _⟩, _, _, _, _⟩ := wf_parts hwf
  have h1 : 1 ≤ f.digits.length := by
    cases hds : f.digits with
    | nil => exact absurd hds hd
    | cons a as => simp
  have h2 : 1 ≤ f.sep.length := by rw [hsep]; simp
  unfold Frame.bodyOff
  omega

/-- The scan on a buffer beginning with a well-formed frame locates the
header at index 0, with the frame's digit run. -/
theorem findHeader_frame {eolLen : Nat} {f : Frame} (rest : List Nat)
    (hwf : wfFrame eolLen f = true) :
    findHeader (f.bytes ++ rest) = some (0, 16 + f.digits.length, f.n) := by
  obtain ⟨hd, hall, hsep, _, _, _, _⟩ := wf_parts hwf
  rw [bytes_assoc]
  exact findHeader_of_matchAt (headerMatchAt_wire _ hd hall hsep)

/-- The brace search on such a buffer finds the body offset. -/
theorem indexOfFrom_frame {eolLen : Nat} {f : Frame} (rest : List Nat)
    (hwf : wfFrame eolLen f = true) :
    indexOfFrom 123 (f.bytes ++ rest) (16 + f.digits.length)
      = (f.bodyOff : Int) := by
  obtain ⟨_, _, _, hsep123, ⟨sl', hsl⟩, _, _⟩ := wf_parts hwf
  rw [bytes_assoc, hsl]
  have : f.slice ++ rest = 123 :: (sl' ++ rest) := by rw [hsl]; simp
  rw [hsl] at this
  simp only [List.cons_append] at this ⊢
  rw [indexOfFrom_wire (sl' ++ rest) hsep123]
  unfold Frame.bodyOff
  push_cast
  ring

/-- The byte slice handed to `JSON.parse` when a complete well-formed frame
heads the buffer is exactly the frame's slice. -/
theorem slice_frame {eolLen : Nat} {f : Frame} (rest : List Nat)
    (hwf : wfFrame eolLen f = true) :
    jsToStringSlice (f.bytes ++ rest) (f.bodyOff : Int)
        (f.bytes.length : Int) = f.slice := by
  have hpre := bodyOff_pre_length f
  have hlt := bodyOff_lt_length hwf
  have h18 := bodyOff_ge hwf
  unfold jsToStringSlice
  have hlen : ((f.bytes ++ rest).length : Int)
      = (f.bytes.length : Int) + rest.length := by simp
  rw [hlen]
  rw [if_neg (by omega), if_neg (by omega), if_neg (by omega),
    if_neg (by omega)]
  have h1 : ((f.bytes.length : Int)).toNat = f.bytes.length := by simp
  have h2 : ((f.bodyOff : Int)).toNat = f.bodyOff := by simp
  rw [h1, h2, List.take_left' rfl]
  have : f.bytes = (hdrBytes ++ f.digits ++ f.sep) ++ f.slice := by
    simp [Frame.bytes]
  rw [this, List.drop_left' hpre]

theorem jsSubarrayFrom_frame (f : Frame) (rest : List Nat) :
    jsSubarrayFrom (f.bytes ++ rest) (f.bytes.length : Int) = rest := by
  have hmin : (min (f.bytes.length : Int)
      ((f.bytes ++ rest).length : Int)).toNat = f.bytes.length := by
    simp
  simp only [jsSubarrayFrom, if_neg (show ¬((f.bytes.length : Int) < 0) by
    omega)]
  rw [hmin, List.drop_left]

theorem parseOf_some {eolLen : Nat} {f : Frame}
    (hwf : wfFrame eolLen f = true) : jsonParse f.slice = some (parseOf f) := by
  obtain ⟨_, _, _, _, _, _, hparse⟩ := wf_parts hwf
  unfold parseOf
  cases h : jsonParse f.slice with
  | none => rw [h] at hparse; simp at hparse
  | some v => simp

/-- The total frame length computed by the loop, as the `Int` the code uses:
`headerByteLength + bodyByteLength + (os.EOL.length - 1)`. -/
theorem cbl_frame {eolLen : Nat} {f : Frame} (h1 : 1 ≤ eolLen)
    (hwf : wfFrame eolLen f = true) :
    (f.bodyOff : Int) + (f.n : Int) + ((eolLen : Int) - 1)
      = (f.bytes.length : Int) := by
  have := bytes_length hwf
  omega

/-- One loop iteration from the awaiting-header state on a buffer headed by a
complete well-formed frame: scan, slice, parse, emit, drop. -/
theorem decLoop_consume_scan {eolLen : Nat} (fuel : Nat) {f : Frame}
    (rest : List Nat) (acc : List JVal) (h1 : 1 ≤ eolLen)
    (hwf : wfFrame eolLen f = true) :
    decLoop eolLen (fuel + 1) (f.bytes ++ rest) (-1) (-1) acc
      = decLoop eolLen fuel rest (-1) (-1) (acc ++ [parseOf f]) := by
  have hfind := findHeader_frame rest hwf
  have hidx := indexOfFrom_frame rest hwf
  have hcbl := cbl_frame h1 hwf
  have hslice := slice_frame rest hwf
  have hparse := parseOf_some hwf
  have hsub := jsSubarrayFrom_frame f rest
  have hlen : ((f.bytes ++ rest).length : Int)
      = (f.bytes.length : Int) + rest.length := by simp
  simp only [decLoop, if_pos (show (-1 : Int) < 0 by omega), hfind,
    Nat.zero_add, hidx, hcbl, hlen]
  rw [if_neg (by omega)]
  simp only [hslice, hparse]
  by_cases hr : 0 < (rest.length : Int)
  · rw [if_pos (by omega)]
    simp only [hsub]
  · have : rest = [] := by
      cases rest with
      | nil => rfl
      | cons a as => simp at hr
    subst this
    rw [if_neg (by simp)]

/-- One loop iteration in the mid-frame state (header already located) once
the buffer holds the complete frame. -/
theorem decLoop_consume_mid {eolLen : Nat} (fuel : Nat) {f : Frame}
    (rest : List Nat) (acc : List JVal)
    (hwf : wfFrame eolLen f = true) :
    decLoop eolLen (fuel + 1) (f.bytes ++ rest) (f.bodyOff : Int)
        (f.bytes.length : Int) acc
      = decLoop eolLen fuel rest (-1) (-1) (acc ++ [parseOf f]) := by
  have h18 := bodyOff_ge hwf
  have hslice := slice_frame rest hwf
  have hparse := parseOf_some hwf
  have hsub := jsSubarrayFrom_frame f rest
  have hlen : ((f.bytes ++ rest).length : Int)
      = (f.bytes.length : Int) + rest.length := by simp
  simp only [decLoop, if_neg (show ¬((f.bodyOff : Int) < 0) by omega), hlen]
  rw [if_neg (by omega)]
  simp only [hslice, hparse]
  by_cases hr : 0 < (rest.length : Int)
  · rw [if_pos (by omega)]
    simp only [hsub]
  · have : rest = [] := by
      cases rest with
      | nil => rfl
      | cons a as => simp at hr
    subst this
    rw [if_neg (by simp)]

/-- Decomposition of a delivered frame prefix that extends past the body's
opening brace. -/
theorem prefix_decomp {eolLen : Nat} {f : Frame} {p : List Nat}
    (hwf : wfFrame eolLen f = true) (hp : p <+: f.bytes)
    (hgt : f.bodyOff < p.length) :
    ∃ sp', p = hdrBytes ++ (f.digits ++ (f.sep ++ (123 :: sp'))) := by
  obtain ⟨_, _, _, _, ⟨sl', hsl⟩, _, _⟩ := wf_parts hwf
  have hpre := bodyOff_pre_length f
  have htake : p = f.bytes.take p.length := by
    obtain ⟨t, ht⟩ := hp
    rw [← ht, List.take_left' rfl]
  have hbytes : f.bytes = (hdrBytes ++ f.digits ++ f.sep) ++ f.slice := by
    simp [Frame.bytes]
  obtain ⟨m, hm', hm1⟩ : ∃ m, p.length = f.bodyOff + m ∧ 1 ≤ m :=
    ⟨p.length - f.bodyOff, by omega, by omega⟩
  have hm : p.length = (hdrBytes ++ f.digits ++ f.sep).length + m := by
    rw [hpre]; exact hm'
  rw [hbytes, hm, List.take_append] at htake
  refine ⟨sl'.take (m - 1), ?_⟩
  have hcons : f.slice.take m = 123 :: sl'.take (m - 1) := by
    rw [hsl]
    cases hq : m with
    | zero => omega
    | succ q => simp
  rw [htake, hcons]
  simp

/-- A loop entry in the awaiting-header state on a safe partial prefix
returns the quiescent state without consuming anything. -/
theorem decLoop_stall {eolLen : Nat} (fuel : Nat) (fsN : List Frame)
    (p : List Nat) (acc : List JVal) (h1 : 1 ≤ eolLen)
    (hwfN : ∀ f ∈ fsN, wfFrame eolLen f = true) (hsafe : PrefSafe fsN p) :
    decLoop eolLen (fuel + 1) p (-1) (-1) acc = .ok (quiesce fsN p, acc) := by
  cases fsN with
  | nil =>
    have hp : p = [] := hsafe
    subst hp
    rfl
  | cons f fsN' =>
    have hwf : wfFrame eolLen f = true := hwfN f (by simp)
    obtain ⟨hp, hlt, hdisj⟩ := hsafe
    by_cases h16 : p.length ≤ 16
    · simp only [decLoop, if_pos (show (-1 : Int) < 0 by omega),
        findHeader_short h16]
      simp [quiesce, if_pos h16]
    · have hgt : f.bodyOff < p.length := by
        rcases hdisj with h | h
        · exact absurd h h16
        · exact h
      obtain ⟨hd, hall, hseps, hsep123, _, _, _⟩ := wf_parts hwf
      obtain ⟨sp', hdecomp⟩ := prefix_decomp hwf hp hgt
      have hfind : findHeader p = some (0, 16 + f.digits.length, f.n) := by
        rw [hdecomp]
        exact findHeader_of_matchAt (headerMatchAt_wire _ hd hall hseps)
      have hidx : indexOfFrom 123 p (16 + f.digits.length)
          = (f.bodyOff : Int) := by
        rw [hdecomp, indexOfFrom_wire sp' hsep123]
        unfold Frame.bodyOff
        push_cast
        ring
      have hcbl := cbl_frame h1 hwf
      simp only [decLoop, if_pos (show (-1 : Int) < 0 by omega), hfind,
        Nat.zero_add, hidx, hcbl]
      rw [if_pos (by exact_mod_cast hlt)]
      simp [quiesce, if_neg h16]

/-- A loop entry in the located-header state with the frame still
incomplete returns at once. -/
theorem decLoop_wait_mid {eolLen : Nat} (fuel : Nat) {f : Frame}
    (p : List Nat) (acc : List JVal) (hwf : wfFrame eolLen f = true)
    (hlt : p.length < f.bytes.length) :
    decLoop eolLen (fuel + 1) p (f.bodyOff : Int) (f.bytes.length : Int) acc
      = .ok (⟨p, (f.bodyOff : Int), (f.bytes.length : Int)⟩, acc) := by
  have h18 := bodyOff_ge hwf
  simp only [decLoop, if_neg (show ¬((f.bodyOff : Int) < 0) by omega)]
  rw [if_pos (by exact_mod_cast hlt)]

/-- Each frame is at least one byte long, so a stream holds at least as many
bytes as frames. -/
theorem length_le_streamB (gs : List Frame) : gs.length ≤ (streamB gs).length := by
  induction gs with
  | nil => simp [streamB]
  | cons g gs ih =>
    have : (streamB (g :: gs)).length = g.bytes.length + (streamB gs).length := by
      simp [streamB]
    rw [this]
    have hg : 1 ≤ g.bytes.length := by
      simp [Frame.bytes, hdrBytes]
    simp only [List.length_cons]
    omega

/-- The loop consumes every complete frame heading the buffer and then
stalls on the safe partial prefix. -/
theorem decLoop_run {eolLen : Nat} (gs : List Frame) (fsN : List Frame)
    (p : List Nat) (acc : List JVal) (fuel : Nat)
    (hfuel : gs.length + 1 ≤ fuel) (h1 : 1 ≤ eolLen)
    (hwfgs : ∀ f ∈ gs, wfFrame eolLen f = true)
    (hwfN : ∀ f ∈ fsN, wfFrame eolLen f = true) (hsafe : PrefSafe fsN p) :
    decLoop eolLen fuel (streamB gs ++ p) (-1) (-1) acc
      = .ok (quiesce fsN p, acc ++ gs.map parseOf) := by
  induction gs generalizing fuel acc with
  | nil =>
    cases fuel with
    | zero => omega
    | succ fuel' =>
      have hs : streamB [] ++ p = p := by simp [streamB]
      rw [hs, decLoop_stall fuel' fsN p acc h1 hwfN hsafe]
      simp
  | cons g gs' ih =>
    cases fuel with
    | zero => omega
    | succ fuel' =>
      have hs : streamB (g :: gs') ++ p = g.bytes ++ (streamB gs' ++ p) := by
        simp [streamB]
      rw [hs, decLoop_consume_scan fuel' (streamB gs' ++ p) acc h1
        (hwfgs g (by simp))]
      rw [ih (acc ++ [parseOf g]) fuel' (by simp at hfuel; omega)
        (fun f hf => hwfgs f (by simp [hf]))]
      simp

theorem streamB_append (gs fs : List Frame) :
    streamB (gs ++ fs) = streamB gs ++ streamB fs := by
  simp [streamB]

theorem streamB_cons (f : Frame) (fs : List Frame) :
    streamB (f :: fs) = f.bytes ++ streamB fs := by
  simp [streamB]

/-- Any delivered prefix of the stream whose end is a safe position splits
into complete frames plus a safe partial prefix of the next frame. -/
theorem stream_decomp {eolLen : Nat} {fsR : List Frame} {buf : List Nat}
    (hwf : ∀ f ∈ fsR, wfFrame eolLen f = true) (hbuf : buf <+: streamB fsR)
    (hcut : safeSplitPos fsR buf.length = true) :
    ∃ gs fsR' p', fsR = gs ++ fsR' ∧ buf = streamB gs ++ p' ∧
      PrefSafe fsR' p' := by
  induction fsR generalizing buf with
  | nil =>
    have hb : buf = [] := by
      have : streamB ([] : List Frame) = [] := by simp [streamB]
      rw [this] at hbuf
      exact List.prefix_nil.mp hbuf
    exact ⟨[], [], [], rfl, by simp [hb, streamB], by simp [PrefSafe, hb]⟩
  | cons f fs ih =>
    rw [streamB_cons] at hbuf
    by_cases hlen : buf.length < f.bytes.length
    · refine ⟨[], f :: fs, buf, rfl, by simp [streamB], ?_, hlen, ?_⟩
      · exact List.prefix_of_prefix_length_le hbuf
          (List.prefix_append f.bytes (streamB fs)) (by omega)
      · unfold safeSplitPos at hcut
        rw [if_neg (by omega)] at hcut
        simp only [Bool.or_eq_true, decide_eq_true_eq] at hcut
        exact hcut
    · have hfb : f.bytes <+: buf :=
        List.prefix_of_prefix_length_le
          (List.prefix_append f.bytes (streamB fs)) hbuf (by omega)
      obtain ⟨q, hq⟩ := hfb
      have hqpre : q <+: streamB fs := by
        rw [← hq] at hbuf
        exact (List.prefix_append_right_inj f.bytes).mp hbuf
      have hqcut : safeSplitPos fs q.length = true := by
        unfold safeSplitPos at hcut
        rw [if_pos (by omega)] at hcut
        have : buf.length - f.bytes.length = q.length := by
          rw [← hq]; simp
        rwa [this] at hcut
      obtain ⟨gs, fsR', p', hdec, hbytes, hsafe⟩ :=
        ih (fun g hg => hwf g (by simp [hg])) hqpre hqcut
      refine ⟨f :: gs, fsR', p', by simp [hdec], ?_, hsafe⟩
      rw [streamB_cons, ← hq, hbytes]
      simp

/-- One `data` callback from a quiescent state, given the decomposition of
the buffered-plus-new bytes: every complete frame is consumed and emitted. -/
theorem onData_step {eolLen : Nat} {fsR : List Frame} {p c : List Nat}
    {gs fsR' : List Frame} {p' : List Nat} (h1 : 1 ≤ eolLen)
    (hwf : ∀ f ∈ fsR, wfFrame eolLen f = true) (hsafe : PrefSafe fsR p)
    (hdec : fsR = gs ++ fsR') (hbytes : p ++ c = streamB gs ++ p')
    (hsafe' : PrefSafe fsR' p') :
    onData eolLen (quiesce fsR p) c = .ok (quiesce fsR' p', gs.map parseOf) := by
  have hwfgs : ∀ f ∈ gs, wfFrame eolLen f = true := by
    intro g hg; exact hwf g (by simp [hdec, hg])
  have hwfN : ∀ f ∈ fsR', wfFrame eolLen f = true := by
    intro g hg; exact hwf g (by simp [hdec, hg])
  have hglen : gs.length + 1 ≤ (p ++ c).length + 1 := by
    have h1' := length_le_streamB gs
    have h2' : (p ++ c).length = (streamB gs).length + p'.length := by
      rw [hbytes]; simp
    omega
  have honData : ∀ (st : DecState),
      onData eolLen st c = decLoop eolLen ((st.buf ++ c).length + 1)
        (st.buf ++ c) st.headerByteLength st.currentByteLength [] :=
    fun _ => rfl
  cases fsR with
  | nil =>
    have hp : p = [] := hsafe
    subst hp
    have hqe : quiesce ([] : List Frame) [] = ⟨[], -1, -1⟩ := rfl
    rw [hqe, honData]
    simp only [List.nil_append] at hbytes ⊢
    rw [hbytes]
    have : gs.length + 1 ≤ (streamB gs ++ p').length + 1 := by
      have h1' := length_le_streamB gs
      simp only [List.length_append]
      omega
    exact decLoop_run gs fsR' p' [] _ this h1 hwfgs hwfN hsafe'
  | cons f fs =>
    obtain ⟨hpre, hplt, hdisj⟩ := hsafe
    by_cases h16 : p.length ≤ 16
    · have hqe : quiesce (f :: fs) p = ⟨p, -1, -1⟩ := by
        simp [quiesce, h16]
      rw [hqe, honData]
      simp only
      rw [hbytes]
      have : gs.length + 1 ≤ (streamB gs ++ p').length + 1 := by
        have h1' := length_le_streamB gs
        simp only [List.length_append]
        omega
      exact decLoop_run gs fsR' p' [] _ this h1 hwfgs hwfN hsafe'
    · have hgt : f.bodyOff < p.length := by
        rcases hdisj with h | h
        · exact absurd h h16
        · exact h
      have hwff : wfFrame eolLen f = true := hwf f (by simp)
      have hqe : quiesce (f :: fs) p
          = ⟨p, (f.bodyOff : Int), (f.bytes.length : Int)⟩ := by
        simp [quiesce, h16]
      rw [hqe, honData]
      simp only
      cases gs with
      | nil =>
        have hp' : p' = p ++ c := by
          rw [hbytes]
          simp [streamB]
        have hfsR' : fsR' = f :: fs := by simpa using hdec.symm
        subst hfsR'
        obtain ⟨hpre', hplt', _⟩ := hsafe'
        have hplt'' : (p ++ c).length < f.bytes.length := by
          rw [← hp']; exact hplt'
        rw [decLoop_wait_mid ((p ++ c).length) (p ++ c) [] hwff hplt'']
        have hq2 : quiesce (f :: fs) p'
            = ⟨p', (f.bodyOff : Int), (f.bytes.length : Int)⟩ := by
          have : ¬(p'.length ≤ 16) := by
            have : p.length ≤ p'.length := by rw [hp']; simp
            omega
          simp [quiesce, this]
        rw [hq2, hp']
        simp [streamB]
      | cons g gs'' =>
        have hinj := hdec
        simp only [List.cons_append, List.cons.injEq] at hinj
        obtain ⟨hfeq, hfs⟩ := hinj
        subst hfeq
        have hrest : p ++ c = f.bytes ++ (streamB gs'' ++ p') := by
          rw [hbytes, streamB_cons]
          simp
        have hlen0 : (p ++ c).length
            = f.bytes.length + ((streamB gs'').length + p'.length) := by
          rw [hrest]; simp
        have hfb : 18 ≤ f.bytes.length := by
          have := bodyOff_ge hwff
          have := bodyOff_lt_length hwff
          omega
        cases hfl : (p ++ c).length with
        | zero => omega
        | succ n =>
          rw [hrest]
          rw [decLoop_consume_mid (n + 1) (streamB gs'' ++ p') [] hwff]
          have hfuel : gs''.length + 1 ≤ n + 1 := by
            have h1' := length_le_streamB gs''
            omega
          simp only [List.nil_append]
          rw [decLoop_run gs'' fsR' p' [parseOf f] (n + 1) hfuel h1
            (fun x hx => hwfgs x (by simp [hx])) hwfN hsafe']
          simp

theorem safeSplitPos_shift (gs fs : List Frame) (d : Nat) :
    safeSplitPos (gs ++ fs) ((streamB gs).length + d) = safeSplitPos fs d := by
  induction gs generalizing d with
  | nil => simp [streamB]
  | cons g gs ih =>
    have hl : (streamB (g :: gs)).length
        = g.bytes.length + (streamB gs).length := by
      simp [streamB]
    rw [List.cons_append]
    unfold safeSplitPos
    rw [if_pos (by omega)]
    have harith : g.bytes.length + (streamB gs).length + d - g.bytes.length
        = (streamB gs).length + d := by omega
    rw [hl, harith, ih]
    cases fs <;> rfl

theorem goodCuts_shift (gs fs : List Frame) (m : Nat) (cs : List (List Nat)) :
    goodCuts (gs ++ fs) ((streamB gs).length + m) cs = goodCuts fs m cs := by
  induction cs generalizing m with
  | nil => rfl
  | cons c cs ih =>
    unfold goodCuts
    have harith : (streamB gs).length + m + c.length
        = (streamB gs).length + (m + c.length) := by omega
    rw [harith, safeSplitPos_shift, ih]

/-- Feeding any sequence of chunks whose cut positions are all safe, from a
quiescent state, decodes exactly the remaining frames, in order. -/
theorem runChunks_good {eolLen : Nat} (cs : List (List Nat))
    (fsR : List Frame) (p : List Nat) (h1 : 1 ≤ eolLen)
    (hwf : ∀ f ∈ fsR, wfFrame eolLen f = true) (hsafe : PrefSafe fsR p)
    (hflat : p ++ cs.flatten = streamB fsR)
    (hcuts : goodCuts fsR p.length cs = true) :
    runChunks eolLen (quiesce fsR p) cs
      = .ok (⟨[], -1, -1⟩, fsR.map parseOf) := by
  induction cs generalizing fsR p with
  | nil =>
    cases fsR with
    | nil =>
      have hp : p = [] := hsafe
      subst hp
      rfl
    | cons f fs =>
      obtain ⟨_, hplt, _⟩ := hsafe
      simp only [List.flatten_nil, List.append_nil] at hflat
      have : (streamB (f :: fs)).length
          = f.bytes.length + (streamB fs).length := by simp [streamB]
      have hple : p.length = (streamB (f :: fs)).length := by rw [hflat]
      omega
  | cons c cs' ih =>
    have hpc : p ++ c <+: streamB fsR := by
      refine ⟨cs'.flatten, ?_⟩
      rw [← hflat]
      simp
    simp only [goodCuts, Bool.and_eq_true] at hcuts
    obtain ⟨hcut1, hcut2⟩ := hcuts
    have hlenpc : (p ++ c).length = p.length + c.length := by simp
    obtain ⟨gs, fsR', p', hdec, hbytes, hsafe'⟩ :=
      stream_decomp hwf hpc (by rw [hlenpc]; exact hcut1)
    have hOn := onData_step h1 hwf hsafe hdec hbytes hsafe'
    have hwf' : ∀ f ∈ fsR', wfFrame eolLen f = true := by
      intro g hg; exact hwf g (by simp [hdec, hg])
    have hlens : p.length + c.length = (streamB gs).length + p'.length := by
      have : (p ++ c).length = (streamB gs ++ p').length := by rw [hbytes]
      simp only [List.length_append] at this
      omega
    have hflat' : p' ++ cs'.flatten = streamB fsR' := by
      have h0 : streamB gs ++ (p' ++ cs'.flatten)
          = streamB gs ++ streamB fsR' := by
        rw [← streamB_append, ← hdec, ← hflat]
        simp only [List.flatten_cons, ← List.append_assoc, hbytes]
      exact List.append_cancel_left h0
    have hcuts' : goodCuts fsR' p'.length cs' = true := by
      have := goodCuts_shift gs fsR' p'.length cs'
      rw [hdec] at hcut2
      rw [← this, ← hlens]
      exact hcut2
    have hrec := ih fsR' p' hwf' hsafe' hflat' hcuts'
    simp only [runChunks, hOn, hrec]
    rw [hdec]
    simp

theorem prefSafe_nil (fs : List Frame) : PrefSafe fs [] := by
  cases fs with
  | nil => rfl
  | cons f fs' =>
    refine ⟨List.nil_prefix, ?_, Or.inl (by simp)⟩
    simp [Frame.bytes, hdrBytes]

theorem quiesce_nil (fs : List Frame) : quiesce fs [] = initDec := by
  cases fs with
  | nil => rfl
  | cons f fs' => rfl

/-- C1 (amended): feeding a complete set of well-formed frames to the
decoder split at byte boundaries yields the identical ordered sequence of
decoded objects — one per frame, none reordered, partial or duplicated —
for every split in which no chunk boundary falls strictly after the first
digit of a frame's `Content-Length` value and at or before that frame's
opening brace (`goodCuts`).  Splits violating that condition can make the
decoder mis-slice and throw (see the counterexample). -/
theorem c1_framing_split_invariance (eolLen : Nat) (fs : List Frame)
    (cs : List (List Nat)) (h1 : 1 ≤ eolLen)
    (hwf : ∀ f ∈ fs, wfFrame eolLen f = true)
    (hflat : cs.flatten = streamB fs) (hcuts : goodCuts fs 0 cs = true) :
    runChunks eolLen initDec cs = .ok (initDec, fs.map parseOf) := by
  have := runChunks_good cs fs [] h1 hwf (prefSafe_nil fs)
    (by simpa using hflat) (by simpa using hcuts)
  rwa [quiesce_nil] at this

/-- Witness for C1: a two-chunk split of a frame cut inside the body decodes
to the same single object as required. -/
theorem c1_witness :
    (∀ f ∈ [fLin], wfFrame 1 f = true) ∧
    ([fLin.bytes.take 22, fLin.bytes.drop 22] : List (List Nat)).flatten
      = streamB [fLin] ∧
    goodCuts [fLin] 0 [fLin.bytes.take 22, fLin.bytes.drop 22] = true ∧
    runChunks 1 initDec [fLin.bytes.take 22, fLin.bytes.drop 22]
      = .ok (initDec, [fLin].map parseOf) :=
  ⟨by decide, by decide, by decide,
    c1_framing_split_invariance 1 [fLin] [fLin.bytes.take 22,
      fLin.bytes.drop 22] (by omega) (by decide) (by decide) (by decide)⟩

/-- Counterexample to C1 as stated: the same well-formed frame split at the
byte boundary right after the first digit of its `Content-Length` value (17
bytes, `"Content-Length: 3"`, in the first chunk — the prefix a one-byte
chunking also passes through) makes the decoder slice garbage and throw: the
premature header match yields `headerByteLength = -1` (no brace buffered
yet), `currentByteLength = -1 + 3 + 0 = 2`, and `JSON.parse("Co")` throws.
The whole-buffer delivery decodes the frame, so the two split configurations
do not yield the same sequence. -/
theorem c1_counterexample :
    runChunks 1 initDec [fLin.bytes.take 17, fLin.bytes.drop 17]
      = .error .jsonError ∧
    runChunks 1 initDec [fLin.bytes] = .ok (initDec, [parseOf fLin]) ∧
    ([fLin.bytes.take 17, fLin.bytes.drop 17] : List (List Nat)).flatten
      = fLin.bytes ∧
    runChunks 1 initDec [fLin.bytes.take 17, fLin.bytes.drop 17]
      ≠ runChunks 1 initDec [fLin.bytes] := by
  refine ⟨by decide, by decide, by decide, by decide⟩

/-- C2 (amended): for a well-formed frame declaring `Content-Length: N`, the
decoder consumes a total frame length of `body-start-offset + N +
(os.EOL.length - 1)` — dependent on the platform's line-terminator length,
`+ 0` on a one-byte-EOL platform — and the slice handed to `JSON.parse` is
the `N + os.EOL.length - 1` bytes starting at the body's opening brace
(tsserver's `N` itself counts one trailing newline byte). -/
theorem c2_frame_length (eolLen : Nat) (f : Frame) (h1 : 1 ≤ eolLen)
    (hwf : wfFrame eolLen f = true) :
    f.bytes.length = f.bodyOff + f.n + (eolLen - 1) ∧
    jsToStringSlice f.bytes (f.bodyOff : Int) (f.bytes.length : Int)
      = f.slice ∧
    f.slice.length = f.n + (eolLen - 1) ∧
    onData eolLen initDec f.bytes = .ok (initDec, [parseOf f]) := by
  obtain ⟨_, _, _, _, _, hlen, _⟩ := wf_parts hwf
  refine ⟨bytes_length hwf, ?_, hlen, ?_⟩
  · have := slice_frame [] hwf
    rwa [List.append_nil] at this
  · have h := @onData_step eolLen [f] [] f.bytes [f] [] [] h1
      (by intro g hg; simp at hg; rwa [hg])
      (prefSafe_nil [f]) (by simp) (by simp [streamB]) rfl
    rw [quiesce_nil] at h
    simpa using h

/-- Witness for C2 on the concrete frame `Content-Length: 3\r\n\r\n{}\n`. -/
theorem c2_witness :
    wfFrame 1 fLin = true ∧
    (fLin.bytes.length = fLin.bodyOff + fLin.n + (1 - 1) ∧
     jsToStringSlice fLin.bytes (fLin.bodyOff : Int)
       (fLin.bytes.length : Int) = fLin.slice ∧
     fLin.slice.length = fLin.n + (1 - 1) ∧
     onData 1 initDec fLin.bytes = .ok (initDec, [parseOf fLin])) :=
  ⟨by decide, c2_frame_length 1 fLin (by omega) (by decide)⟩

/-- Counterexample to C2 as stated: on a one-byte-EOL platform the decoder
consumes the whole 24-byte frame `Content-Length: 3\r\n\r\n{}\n` —
`body-offset 21 + N 3 + 0`, not `21 + 3 + 1` — so the consumed length is not
`offset + N + 1` and depends on the platform; and on a two-byte-EOL platform
the slice handed to `JSON.parse` for `Content-Length: 3\r\n\r\n{}\r\n` has
`N + 1 = 4` bytes, not exactly `N`. -/
theorem c2_counterexample :
    wfFrame 1 fLin = true ∧ wfFrame 2 fWin = true ∧
    onData 1 initDec fLin.bytes = .ok (initDec, [.vobj .nil]) ∧
    fLin.bytes.length = 24 ∧ fLin.bodyOff = 21 ∧ fLin.n = 3 ∧
    fLin.bytes.length ≠ fLin.bodyOff + fLin.n + 1 ∧
    onData 2 initDec fWin.bytes = .ok (initDec, [.vobj .nil]) ∧
    jsToStringSlice fWin.bytes (fWin.bodyOff : Int) (fWin.bytes.length : Int)
      = [123, 125, 13, 10] ∧
    fWin.bytes.length = fWin.bodyOff + fWin.n + 1 ∧
    ([123, 125, 13, 10] : List Nat).length ≠ fWin.n := by
  refine ⟨by decide, by decide, by decide, by decide, by decide, by decide,
    by decide, by decide, by decide, by decide, by decide⟩

/-! ### Correlator lemmas -/

theorem mapGet_mem {α : Type} {m : List (JVal × α)} {k : JVal} {v : α}
    (h : mapGet m k = some v) : (k, v) ∈ m := by
  induction m with
  | nil => simp [mapGet] at h
  | cons e rest ih =>
    obtain ⟨k0, v0⟩ := e
    unfold mapGet at h
    by_cases hk : k0 = k
    · rw [if_pos hk] at h
      subst hk
      simp at h
      simp [h]
    · rw [if_neg hk] at h
      simp [ih h]

theorem mem_mapSet {α : Type} {m : List (JVal × α)} {k' k : JVal} {v' v : α}
    (h : (k', v') ∈ mapSet m k v) : (k', v') ∈ m ∨ (k' = k ∧ v' = v) := by
  induction m with
  | nil =>
    simp [mapSet] at h
    exact Or.inr h
  | cons e rest ih =>
    obtain ⟨k0, v0⟩ := e
    unfold mapSet at h
    by_cases hk : k0 = k
    · rw [if_pos hk] at h
      subst hk
      rcases List.mem_cons.mp h with h1 | h1
      · simp at h1
        exact Or.inr ⟨h1.1, h1.2⟩
      · exact Or.inl (List.mem_cons_of_mem _ h1)
    · rw [if_neg hk] at h
      rcases List.mem_cons.mp h with h1 | h1
      · exact Or.inl (by simp [h1])
      · rcases ih h1 with h2 | h2
        · exact Or.inl (List.mem_cons_of_mem _ h2)
        · exact Or.inr h2

theorem mem_mapDel {α : Type} {m : List (JVal × α)} {k' k : JVal} {v' : α}
    (h : (k', v') ∈ mapDel m k) : (k', v') ∈ m := by
  induction m with
  | nil => simp [mapDel] at h
  | cons e rest ih =>
    obtain ⟨k0, v0⟩ := e
    unfold mapDel at h
    by_cases hk : k0 = k
    · rw [if_pos hk] at h
      exact List.mem_cons_of_mem _ h
    · rw [if_neg hk] at h
      rcases List.mem_cons.mp h with h1 | h1
      · exact Or.inl h1 |> List.mem_cons.mpr
      · exact List.mem_cons_of_mem _ (ih h1)

theorem isSome_mapDel {α : Type} {m : List (JVal × α)} {k0 k : JVal}
    (h : (mapGet (mapDel m k0) k).isSome = true) :
    (mapGet m k).isSome = true := by
  induction m with
  | nil => simpa [mapDel] using h
  | cons e rest ih =>
    obtain ⟨ke, ve⟩ := e
    unfold mapDel at h
    by_cases hk : ke = k
    · unfold mapGet
      rw [if_pos hk]
      rfl
    · unfold mapGet
      rw [if_neg hk]
      by_cases hk0 : ke = k0
      · rw [if_pos hk0] at h
        exact h
      · rw [if_neg hk0] at h
        unfold mapGet at h
        rw [if_neg hk] at h
        exact ih h

theorem mapGet_mapDel_of_none {α : Type} {m : List (JVal × α)} {k : JVal}
    (k0 : JVal) (h : mapGet m k = none) : mapGet (mapDel m k0) k = none := by
  induction m with
  | nil => simpa [mapDel] using h
  | cons e rest ih =>
    obtain ⟨ke, ve⟩ := e
    unfold mapGet at h
    by_cases hk : ke = k
    · rw [if_pos hk] at h
      cases h
    · rw [if_neg hk] at h
      unfold mapDel
      by_cases hk0 : ke = k0
      · rw [if_pos hk0]
        exact h
      · rw [if_neg hk0]
        unfold mapGet
        rw [if_neg hk]
        exact ih h

theorem mapGet_mapSet_other {α : Type} {m : List (JVal × α)} {k k0 : JVal}
    {v : α} (h : k ≠ k0) : mapGet (mapSet m k0 v) k = mapGet m k := by
  induction m with
  | nil =>
    simp [mapSet, mapGet]
    exact fun hh => h hh.symm
  | cons e rest ih =>
    obtain ⟨ke, ve⟩ := e
    unfold mapSet
    by_cases hk0 : ke = k0
    · rw [if_pos hk0]
      unfold mapGet
      rw [if_neg (by rw [hk0]; exact fun hh => h hh.symm),
        if_neg (by rw [hk0]; exact fun hh => h hh.symm)]
    · rw [if_neg hk0]
      unfold mapGet
      by_cases hke : ke = k
      · rw [if_pos hke, if_pos hke]
      · rw [if_neg hke, if_neg hke]
        exact ih

/-- Any object the correlator keys under a numeric sequence value is a
JavaScript object (property access on primitives yields `undefined`, never a
number), hence truthy. -/
theorem resp_vnum_vobj {obj : JVal} {n : Int}
    (h : requestSeqOf obj = .ok (.vnum n)) : ∃ fs, obj = .vobj fs := by
  cases obj with
  | vundefined => simp [requestSeqOf, getProp] at h
  | vnull => simp [requestSeqOf, getProp] at h
  | vbool b => simp [requestSeqOf, getProp] at h
  | vnum m => simp [requestSeqOf, getProp] at h
  | vstr s => simp [requestSeqOf, getProp] at h
  | vobj fs => exact ⟨fs, rfl⟩

/-- One interleaving step preserves the exclusivity invariant together with
the numeric-key-truthiness auxiliary invariant. -/
theorem corrInv_step (listeners : List Nat) (st : CorrState) (a : Act)
    (h1 : ∀ k, (mapGet st.waiters k).isSome = true → mapGet st.objects k = none)
    (h2 : ∀ (n : Int) v, (JVal.vnum n, v) ∈ st.objects → truthy v = true) :
    (∀ k, (mapGet (stepAct listeners st a).waiters k).isSome = true →
        mapGet (stepAct listeners st a).objects k = none) ∧
    (∀ (n : Int) v, (JVal.vnum n, v) ∈ (stepAct listeners st a).objects →
        truthy v = true) := by
  cases a with
  | deliver obj =>
    cases hh : handleMessage listeners st obj with
    | error e =>
      simp only [stepAct, hh]
      exact ⟨h1, h2⟩
    | ok out =>
      simp only [stepAct, hh]
      unfold handleMessage at hh
      cases hbg : broadcastGuard obj with
      | error e => rw [hbg] at hh; cases hh
      | ok b =>
        rw [hbg] at hh
        cases b with
        | true =>
          simp only at hh
          cases hh
          exact ⟨h1, h2⟩
        | false =>
          simp only at hh
          cases hrs : requestSeqOf obj with
          | error e => rw [hrs] at hh; cases hh
          | ok rs =>
            rw [hrs] at hh
            simp only at hh
            cases hw : mapGet st.waiters rs with
            | some pid =>
              rw [hw] at hh
              cases hh
              refine ⟨?_, h2⟩
              intro k hk
              exact h1 k (isSome_mapDel hk)
            | none =>
              rw [hw] at hh
              cases hh
              constructor
              · intro k hk
                by_cases hkrs : k = rs
                · subst hkrs
                  rw [hw] at hk
                  cases hk
                · rw [mapGet_mapSet_other hkrs]
                  exact h1 k hk
              · intro n v hv
                rcases mem_mapSet hv with hmem | ⟨hkeq, hveq⟩
                · exact h2 n v hmem
                · subst hveq
                  obtain ⟨fs, hobj⟩ := resp_vnum_vobj (hkeq ▸ hrs)
                  rw [hobj]
                  rfl
  | awaitR pid seq =>
    simp only [stepAct]
    unfold getResponse
    cases hg : mapGet st.objects (.vnum seq) with
    | some v =>
      have htr : truthy v = true := h2 seq v (mapGet_mem hg)
      simp only [if_pos htr]
      constructor
      · intro k hk
        exact mapGet_mapDel_of_none _ (h1 k hk)
      · intro n w hw
        exact h2 n w (mem_mapDel hw)
    | none =>
      simp only
      constructor
      · intro k hk
        by_cases hks : k = JVal.vnum seq
        · subst hks
          exact hg
        · rw [mapGet_mapSet_other hks] at hk
          exact h1 k hk
      · exact h2

/-- The invariants hold in every state reachable from the empty correlator. -/
theorem corrInv_run (listeners : List Nat) (acts : List Act) :
    (∀ k, (mapGet (runActs listeners corrInit acts).waiters k).isSome = true →
        mapGet (runActs listeners corrInit acts).objects k = none) ∧
    (∀ (n : Int) v, (JVal.vnum n, v) ∈ (runActs listeners corrInit acts).objects →
        truthy v = true) := by
  suffices h : ∀ (st : CorrState),
      (∀ k, (mapGet st.waiters k).isSome = true → mapGet st.objects k = none) →
      (∀ (n : Int) v, (JVal.vnum n, v) ∈ st.objects → truthy v = true) →
      (∀ k, (mapGet (runActs listeners st acts).waiters k).isSome = true →
          mapGet (runActs listeners st acts).objects k = none) ∧
      (∀ (n : Int) v, (JVal.vnum n, v) ∈ (runActs listeners st acts).objects →
          truthy v = true) by
    exact h corrInit (by intro k hk; simp [corrInit, mapGet] at hk)
      (by intro n v hv; simp [corrInit] at hv)
  induction acts with
  | nil => intro st ha hb; exact ⟨ha, hb⟩
  | cons a rest ih =>
    intro st ha hb
    obtain ⟨ha', hb'⟩ := corrInv_step listeners st a ha hb
    exact ih (stepAct listeners st a) ha' hb'

theorem broadcastGuard_event {obj e : JVal}
    (hT : getProp obj "type" = .ok (.vstr "event"))
    (hE : getProp obj "event" = .ok e) :
    broadcastGuard obj = .ok (decide (e ≠ .vstr "requestCompleted")) := by
  unfold broadcastGuard
  rw [hT]
  simp only
  rw [if_pos trivial, hE]

theorem requestSeqOf_event {obj b rs : JVal}
    (hT : getProp obj "type" = .ok (.vstr "event"))
    (hB : getProp obj "body" = .ok b)
    (hR : getProp b "request_seq" = .ok rs) :
    requestSeqOf obj = .ok rs := by
  unfold requestSeqOf
  rw [hT]
  simp only
  rw [if_pos trivial, hB]
  exact hR

/-- C3 (amended): for every decoded object with `type = "event"`: if its
event name differs from `"requestCompleted"`, `handleMessage` delivers it to
every registered event listener in registration order, leaves the maps
unchanged and resolves no pending request; if its event name equals
`"requestCompleted"` and its `body` property is readable, it is treated as
the response for `body.request_seq` — resolving the registered waiter or
buffering the object under that key (whatever value it is, including
`undefined` when absent) — and is not delivered to event listeners. -/
theorem c3_event_discrimination :
    (∀ (listeners : List Nat) (st : CorrState) (obj e : JVal),
      getProp obj "type" = .ok (.vstr "event") →
      getProp obj "event" = .ok e → e ≠ .vstr "requestCompleted" →
      handleMessage listeners st obj
        = .ok ⟨st, listeners.map (fun l => (l, obj)), []⟩) ∧
    (∀ (listeners : List Nat) (st : CorrState) (obj b rs : JVal),
      getProp obj "type" = .ok (.vstr "event") →
      getProp obj "event" = .ok (.vstr "requestCompleted") →
      getProp obj "body" = .ok b → getProp b "request_seq" = .ok rs →
      ((∃ pid, mapGet st.waiters rs = some pid ∧
          handleMessage listeners st obj
            = .ok ⟨⟨mapDel st.waiters rs, st.objects⟩, [], [(pid, obj)]⟩) ∨
        (mapGet st.waiters rs = none ∧
          handleMessage listeners st obj
            = .ok ⟨⟨st.waiters, mapSet st.objects rs obj⟩, [], []⟩))) := by
  constructor
  · intro listeners st obj e hT hE hne
    have hguard : broadcastGuard obj = .ok true := by
      rw [broadcastGuard_event hT hE]
      simp [hne]
    unfold handleMessage
    rw [hguard]
  · intro listeners st obj b rs hT hE hB hR
    have hguard : broadcastGuard obj = .ok false := by
      rw [broadcastGuard_event hT hE]
      simp
    have hrs : requestSeqOf obj = .ok rs := requestSeqOf_event hT hB hR
    unfold handleMessage
    rw [hguard]
    simp only
    rw [hrs]
    simp only
    cases hw : mapGet st.waiters rs with
    | some pid => exact Or.inl ⟨pid, rfl, rfl⟩
    | none => exact Or.inr ⟨rfl, rfl⟩

/-- Witness for C3: a broadcast event is delivered to the one registered
listener, and a completion event with `body.request_seq = 7` resolves the
waiter registered for 7. -/
theorem c3_witness :
    handleMessage [0] corrInit
        (.vobj (.cons "type" (.vstr "event")
          (.cons "event" (.vstr "telemetry") .nil)))
      = .ok ⟨corrInit, [(0, .vobj (.cons "type" (.vstr "event")
          (.cons "event" (.vstr "telemetry") .nil)))], []⟩ ∧
    ((∃ pid, mapGet (⟨[(.vnum 7, 4)], []⟩ : CorrState).waiters (.vnum 7)
        = some pid ∧
      handleMessage [0] ⟨[(.vnum 7, 4)], []⟩
          (.vobj (.cons "type" (.vstr "event")
            (.cons "event" (.vstr "requestCompleted")
              (.cons "body" (.vobj (.cons "request_seq" (.vnum 7) .nil))
                .nil))))
        = .ok ⟨⟨mapDel (⟨[(.vnum 7, 4)], []⟩ : CorrState).waiters (.vnum 7),
            []⟩, [],
            [(pid, .vobj (.cons "type" (.vstr "event")
              (.cons "event" (.vstr "requestCompleted")
                (.cons "body" (.vobj (.cons "request_seq" (.vnum 7) .nil))
                  .nil))))]⟩) ∨
      (mapGet (⟨[(.vnum 7, 4)], []⟩ : CorrState).waiters (.vnum 7) = none ∧
      handleMessage [0] ⟨[(.vnum 7, 4)], []⟩
          (.vobj (.cons "type" (.vstr "event")
            (.cons "event" (.vstr "requestCompleted")
              (.cons "body" (.vobj (.cons "request_seq" (.vnum 7) .nil))
                .nil))))
        = .ok ⟨⟨(⟨[(.vnum 7, 4)], []⟩ : CorrState).waiters,
            mapSet [] (.vnum 7) (.vobj (.cons "type" (.vstr "event")
              (.cons "event" (.vstr "requestCompleted")
                (.cons "body" (.vobj (.cons "request_seq" (.vnum 7) .nil))
                  .nil))))⟩, [], []⟩)) :=
  ⟨c3_event_discrimination.1 [0] corrInit _ (.vstr "telemetry") rfl rfl
      (by decide),
    c3_event_discrimination.2 [0] ⟨[(.vnum 7, 4)], []⟩ _
      (.vobj (.cons "request_seq" (.vnum 7) .nil)) (.vnum 7)
      rfl rfl rfl rfl⟩

/-- Counterexample to C3 as stated: `{type: "event", event:
"requestCompleted", body: {}}` has no `body.request_seq`, yet `handleMessage`
does not deliver it to the registered event listener — it buffers the object
under the key `undefined` (the value of `obj.body.request_seq`). -/
theorem c3_counterexample :
    handleMessage [0] corrInit evNoSeq
      = .ok ⟨⟨[], [(.vundefined, evNoSeq)]⟩, [], []⟩ ∧
    ([] : List (Nat × JVal)) ≠ [0].map (fun l => (l, evNoSeq)) := by
  exact ⟨by decide, by decide⟩

/-- C9: `handleMessage` is not total over event-shaped inputs: on `{type:
"event", event: "requestCompleted"}` with no `body` field it throws a
`TypeError` (it unconditionally reads `obj.body.request_seq`, and `obj.body`
is `undefined`) instead of broadcasting or buffering. -/
theorem c9_handleMessage_throws (listeners : List Nat) (st : CorrState) :
    handleMessage listeners st evNoBody = .error .typeError := rfl

/-- C8: delivery and awaiting commute — delivering a response object for
sequence `s` into the empty correlator and then calling `getResponse s`
yields the same resolved object as registering the waiter first and then
delivering. -/
theorem c8_race_independence (listeners : List Nat) (pid : Nat) (s : Int)
    (o : JVal) (hrs : requestSeqOf o = .ok (.vnum s))
    (hbg : broadcastGuard o = .ok false) :
    (∃ st1, handleMessage listeners corrInit o = .ok ⟨st1, [], []⟩ ∧
      (getResponse st1 pid s).2 = some o) ∧
    (∃ st2 out, getResponse corrInit pid s = (st2, none) ∧
      handleMessage listeners st2 o = .ok out ∧
      out.resolutions = [(pid, o)] ∧ out.deliveries = []) := by
  obtain ⟨fs, hobj⟩ := resp_vnum_vobj hrs
  subst hobj
  constructor
  · refine ⟨⟨[], [(.vnum s, .vobj fs)]⟩, ?_, ?_⟩
    · unfold handleMessage
      rw [hbg]
      simp only
      rw [hrs]
      simp only
      rfl
    · simp [getResponse, mapGet, truthy]
  · refine ⟨⟨[(.vnum s, pid)], []⟩, ⟨⟨mapDel [(.vnum s, pid)] (.vnum s), []⟩,
      [], [(pid, .vobj fs)]⟩, rfl, ?_, rfl, rfl⟩
    unfold handleMessage
    rw [hbg]
    simp only
    rw [hrs]
    simp only
    simp [mapGet]

/-- Witness for C8 at `s = 5` with the response `{request_seq: 5}`. -/
theorem c8_witness :
    (∃ st1, handleMessage [] corrInit
        (.vobj (.cons "request_seq" (.vnum 5) .nil)) = .ok ⟨st1, [], []⟩ ∧
      (getResponse st1 0 5).2
        = some (.vobj (.cons "request_seq" (.vnum 5) .nil))) ∧
    (∃ st2 out, getResponse corrInit 0 5 = (st2, none) ∧
      handleMessage [] st2 (.vobj (.cons "request_seq" (.vnum 5) .nil))
        = .ok out ∧
      out.resolutions = [(0, .vobj (.cons "request_seq" (.vnum 5) .nil))] ∧
      out.deliveries = []) :=
  c8_race_independence [] 0 5 (.vobj (.cons "request_seq" (.vnum 5) .nil))
    (by decide) (by decide)

/-- C4: in every state reachable by any interleaving of `handleMessage`
deliveries and `awaitResponse` registrations from the empty correlator, no
sequence number is a key of both the pending-waiter map and the
buffered-objects map; moreover delivering a response to a registered waiter
removes the waiter without buffering, and awaiting a buffered (truthy)
object removes the buffer entry without registering a waiter. -/
theorem c4_waiter_buffer_exclusive :
    (∀ (listeners : List Nat) (acts : List Act) (s : Int),
      ¬((mapGet (runActs listeners corrInit acts).waiters (.vnum s)).isSome
          = true ∧
        (mapGet (runActs listeners corrInit acts).objects (.vnum s)).isSome
          = true)) ∧
    (∀ (listeners : List Nat) (st : CorrState) (obj rs : JVal) (pid : Nat),
      broadcastGuard obj = .ok false → requestSeqOf obj = .ok rs →
      mapGet st.waiters rs = some pid →
      handleMessage listeners st obj
        = .ok ⟨⟨mapDel st.waiters rs, st.objects⟩, [], [(pid, obj)]⟩) ∧
    (∀ (st : CorrState) (pid : Nat) (s : Int) (v : JVal),
      mapGet st.objects (.vnum s) = some v → truthy v = true →
      getResponse st pid s
        = (⟨st.waiters, mapDel st.objects (.vnum s)⟩, some v)) := by
  refine ⟨?_, ?_, ?_⟩
  · intro listeners acts s ⟨hw, ho⟩
    have := (corrInv_run listeners acts).1 (.vnum s) hw
    rw [this] at ho
    cases ho
  · intro listeners st obj rs pid hbg hrs hw
    unfold handleMessage
    rw [hbg]
    simp only
    rw [hrs]
    simp only
    rw [hw]
  · intro st pid s v hg ht
    unfold getResponse
    rw [hg]
    simp only [if_pos ht]

/-- Witness for C4: the invariant after a deliver-then-await interleaving,
and both removal behaviours at concrete states. -/
theorem c4_witness :
    (¬((mapGet (runActs [] corrInit
        [.deliver (.vobj (.cons "request_seq" (.vnum 3) .nil)),
          .awaitR 0 3]).waiters (.vnum 3)).isSome = true ∧
      (mapGet (runActs [] corrInit
        [.deliver (.vobj (.cons "request_seq" (.vnum 3) .nil)),
          .awaitR 0 3]).objects (.vnum 3)).isSome = true)) ∧
    handleMessage [] ⟨[(.vnum 3, 9)], []⟩
        (.vobj (.cons "request_seq" (.vnum 3) .nil))
      = .ok ⟨⟨mapDel [(.vnum 3, 9)] (.vnum 3), []⟩, [],
          [(9, .vobj (.cons "request_seq" (.vnum 3) .nil))]⟩ ∧
    getResponse ⟨[], [(.vnum 3, .vobj .nil)]⟩ 0 3
      = (⟨[], mapDel [(.vnum 3, .vobj .nil)] (.vnum 3)⟩, some (.vobj .nil)) :=
  ⟨c4_waiter_buffer_exclusive.1 []
      [.deliver (.vobj (.cons "request_seq" (.vnum 3) .nil)), .awaitR 0 3] 3,
    c4_waiter_buffer_exclusive.2.1 [] ⟨[(.vnum 3, 9)], []⟩
      (.vobj (.cons "request_seq" (.vnum 3) .nil)) (.vnum 3) 9
      (by decide) (by decide) (by decide),
    c4_waiter_buffer_exclusive.2.2 ⟨[], [(.vnum 3, .vobj .nil)]⟩ 0 3
      (.vobj .nil) (by decide) (by decide)⟩

/-! ### Process lifecycle claims -/

/-- C7: `message` fails with the `ServerExited` error, handing nothing to the
transport, exactly when the process handle reports disconnected, killed, or
an already-recorded exit code or signal code; otherwise the request (an
object, per the data model) is written to the transport — `send(request)`
over node-ipc, or `JSON.stringify(request) + "\n"` to stdin. -/
theorem c7_send_guard (proc : ProcHandle) (useNodeIpc : Bool) (req : JVal)
    (fs : JFields) (hreq : req = .vobj fs) :
    (message proc useNodeIpc req = .serverExited ↔
      (proc.connected = false ∨ proc.killed = true ∨
        proc.exitCode ≠ none ∨ proc.signalCode ≠ none)) ∧
    (¬(proc.connected = false ∨ proc.killed = true ∨
        proc.exitCode ≠ none ∨ proc.signalCode ≠ none) →
      ∃ aw, message proc useNodeIpc req
        = .sent (if useNodeIpc then .ipc req else .stdinLine req) aw) := by
  subst hreq
  have hiff : (!proc.connected || proc.killed
        || decide (proc.exitCode ≠ none) || decide (proc.signalCode ≠ none))
        = true ↔
      (proc.connected = false ∨ proc.killed = true ∨
        proc.exitCode ≠ none ∨ proc.signalCode ≠ none) := by
    simp [Bool.or_eq_true, Bool.not_eq_true']
    tauto
  by_cases hg : (!proc.connected || proc.killed
      || decide (proc.exitCode ≠ none) || decide (proc.signalCode ≠ none))
      = true
  · constructor
    · exact ⟨fun _ => hiff.mp hg, fun _ => by unfold message; rw [if_pos hg]⟩
    · intro hnp
      exact absurd (hiff.mp hg) hnp
  · have hmsg : ∃ aw, message proc useNodeIpc (.vobj fs)
        = .sent (if useNodeIpc then .ipc (.vobj fs)
            else .stdinLine (.vobj fs)) aw := by
      unfold message
      rw [if_neg hg]
      simp only [getProp]
      by_cases hc : ((lookupLast fs "command").getD .vundefined) = .vstr "exit"
      · exact ⟨none, by rw [if_pos hc]⟩
      · exact ⟨some ((lookupLast fs "seq").getD .vundefined), by rw [if_neg hc]⟩
    constructor
    · constructor
      · intro habs
        obtain ⟨aw, haw⟩ := hmsg
        rw [habs] at haw
        cases haw
      · intro hp
        exact absurd (hiff.mpr hp) hg
    · intro _
      exact hmsg

/-- Witness for C7: a live handle sends; a disconnected handle gets
`ServerExited`. -/
theorem c7_witness :
    ((message ⟨true, false, none, none⟩ false
        (.vobj (.cons "seq" (.vnum 1) (.cons "command" (.vstr "echo") .nil)))
        = .serverExited ↔
      ((⟨true, false, none, none⟩ : ProcHandle).connected = false ∨
        (⟨true, false, none, none⟩ : ProcHandle).killed = true ∨
        (⟨true, false, none, none⟩ : ProcHandle).exitCode ≠ none ∨
        (⟨true, false, none, none⟩ : ProcHandle).signalCode ≠ none)) ∧
      (¬((⟨true, false, none, none⟩ : ProcHandle).connected = false ∨
          (⟨true, false, none, none⟩ : ProcHandle).killed = true ∨
          (⟨true, false, none, none⟩ : ProcHandle).exitCode ≠ none ∨
          (⟨true, false, none, none⟩ : ProcHandle).signalCode ≠ none) →
        ∃ aw, message ⟨true, false, none, none⟩ false
            (.vobj (.cons "seq" (.vnum 1)
              (.cons "command" (.vstr "echo") .nil)))
          = .sent (if false then .ipc (.vobj (.cons "seq" (.vnum 1)
              (.cons "command" (.vstr "echo") .nil)))
            else .stdinLine (.vobj (.cons "seq" (.vnum 1)
              (.cons "command" (.vstr "echo") .nil)))) aw)) ∧
    message ⟨false, false, none, none⟩ false
        (.vobj (.cons "seq" (.vnum 1) (.cons "command" (.vstr "echo") .nil)))
      = .serverExited :=
  ⟨c7_send_guard ⟨true, false, none, none⟩ false _ _ rfl,
    (c7_send_guard ⟨false, false, none, none⟩ false _
      (.cons "seq" (.vnum 1) (.cons "command" (.vstr "echo") .nil)) rfl).1.mpr
      (Or.inl rfl)⟩

theorem runEK_inert (ko : KillOutcome) (st : EKState) (evs : List EKEvent)
    (hc : st.closeConsumed = true) (ht : st.timerActive = false) :
    runEK ko st evs = st := by
  induction evs with
  | nil => rfl
  | cons e rest ih =>
    have hstep : ekStep ko st e = st := by
      cases e with
      | closeFires => simp [ekStep, hc]
      | timerFires => simp [ekStep, ht]
    unfold runEK
    rw [hstep, ih]

theorem runEK_afterTimeout (ko : KillOutcome) (evs : List EKEvent) :
    ∀ (st : EKState), st.timedOut = true → st.timerActive = false →
    (runEK ko st evs).resolveCalls = st.resolveCalls ∧
    (runEK ko st evs).killInvocations = st.killInvocations ∧
    (runEK ko st evs).killRejected = st.killRejected := by
  induction evs with
  | nil => exact fun st _ _ => ⟨rfl, rfl, rfl⟩
  | cons e rest ih =>
    intro st hto hta
    cases e with
    | closeFires =>
      by_cases hc : st.closeConsumed = true
      · have hstep : ekStep ko st .closeFires = st := by simp [ekStep, hc]
        unfold runEK
        rw [hstep]
        exact ih st hto hta
      · have hstep : ekStep ko st .closeFires
            = { st with closeConsumed := true } := by
          simp [ekStep, hc, hto]
        unfold runEK
        rw [hstep]
        exact ih _ hto hta
    | timerFires =>
      have hstep : ekStep ko st .timerFires = st := by simp [ekStep, hta]
      unfold runEK
      rw [hstep]
      exact ih st hto hta

theorem ekInv_step (ko : KillOutcome) (st : EKState) (e : EKEvent)
    (h1 : st.resolveCalls.length ≤ 1)
    (h2 : st.resolveCalls ≠ [] → (st.timerActive = false ∧
      (st.timedOut = true ∨ st.closeConsumed = true))) :
    (ekStep ko st e).resolveCalls.length ≤ 1 ∧
    ((ekStep ko st e).resolveCalls ≠ [] →
      ((ekStep ko st e).timerActive = false ∧
        ((ekStep ko st e).timedOut = true ∨
          (ekStep ko st e).closeConsumed = true))) := by
  cases e with
  | closeFires =>
    by_cases hc : st.closeConsumed = true
    · simp only [ekStep, if_pos hc]
      exact ⟨h1, h2⟩
    · simp only [ekStep, if_neg hc]
      by_cases hto : st.timedOut = true
      · simp only [if_pos hto]
        refine ⟨h1, fun hne => ⟨(h2 hne).1, ?_⟩⟩
        exact Or.inl hto
      · simp only [if_neg hto]
        have hrc : st.resolveCalls = [] := by
          by_contra hne
          rcases (h2 hne).2 with h | h
          · exact hto h
          · exact hc h
        rw [hrc]
        exact ⟨by simp, fun _ => ⟨by trivial, Or.inr (by trivial)⟩⟩
  | timerFires =>
    by_cases hta : st.timerActive = true
    · simp only [ekStep, hta, Bool.not_true, Bool.false_eq_true, if_neg
        (by simp : ¬(false = true))]
      have hrc : st.resolveCalls = [] := by
        by_contra hne
        rw [(h2 hne).1] at hta
        cases hta
      cases ko with
      | rejectedKillFailed =>
        simp only
        rw [hrc]
        exact ⟨by simp, fun h => absurd rfl h⟩
      | resolvedImmediately =>
        simp only
        rw [hrc]
        exact ⟨by simp, fun _ => ⟨rfl, Or.inl rfl⟩⟩
      | resolvesOnClose =>
        simp only
        rw [hrc]
        exact ⟨by simp, fun _ => ⟨rfl, Or.inl rfl⟩⟩
    · have hta' : st.timerActive = false := by
        cases h : st.timerActive
        · rfl
        · exact absurd h hta
      simp only [ekStep, hta', Bool.not_false, if_pos rfl]
      exact ⟨h1, h2⟩

/-- C5: for every schedule of the race's occurrences, `exitOrKill` resolves
at most once; when the `close` event fires before the timeout it resolves
`true` and forced kill is never invoked (a later timer firing is a cleared
no-op); when the timeout fires first (and the awaited `kill` does not
reject) it invokes forced kill exactly once and resolves `false`, and a
`close` event arriving afterwards does not also resolve the promise. -/
theorem c5_exitOrKill_race :
    (∀ (ko : KillOutcome) (evs : List EKEvent),
      (runEK ko ekInit evs).resolveCalls.length ≤ 1) ∧
    (∀ (ko : KillOutcome) (rest : List EKEvent),
      (runEK ko ekInit (.closeFires :: rest)).resolveCalls = [true] ∧
      (runEK ko ekInit (.closeFires :: rest)).killInvocations = 0) ∧
    (∀ (ko : KillOutcome) (rest : List EKEvent),
      ko ≠ .rejectedKillFailed →
      (runEK ko ekInit (.timerFires :: rest)).resolveCalls = [false] ∧
      (runEK ko ekInit (.timerFires :: rest)).killInvocations = 1) := by
  refine ⟨?_, ?_, ?_⟩
  · intro ko evs
    suffices h : ∀ (st : EKState), st.resolveCalls.length ≤ 1 →
        (st.resolveCalls ≠ [] → (st.timerActive = false ∧
          (st.timedOut = true ∨ st.closeConsumed = true))) →
        (runEK ko st evs).resolveCalls.length ≤ 1 by
      exact h ekInit (by simp [ekInit]) (fun h => absurd rfl h)
    induction evs with
    | nil => exact fun st h1 _ => h1
    | cons e rest ih =>
      intro st h1 h2
      obtain ⟨h1', h2'⟩ := ekInv_step ko st e h1 h2
      exact ih (ekStep ko st e) h1' h2'
  · intro ko rest
    have hstep : ekStep ko ekInit .closeFires
        = ⟨false, false, true, [true], 0, false⟩ := rfl
    unfold runEK
    rw [hstep, runEK_inert ko _ rest rfl rfl]
    exact ⟨rfl, rfl⟩
  · intro ko rest hko
    have hstep : ekStep ko ekInit .timerFires
        = ⟨true, false, false, [false], 1, false⟩ := by
      cases ko with
      | rejectedKillFailed => exact absurd rfl hko
      | resolvedImmediately => rfl
      | resolvesOnClose => rfl
    unfold runEK
    rw [hstep]
    obtain ⟨ha, hb, _⟩ := runEK_afterTimeout ko rest
      ⟨true, false, false, [false], 1, false⟩ rfl rfl
    exact ⟨ha, hb⟩

/-- Witness for C5 with the kill outcome `resolvesOnClose` and a late close
after the timer. -/
theorem c5_witness :
    ((KillOutcome.resolvesOnClose ≠ KillOutcome.rejectedKillFailed) ∧
      (runEK .resolvesOnClose ekInit
        [.timerFires, .closeFires]).resolveCalls = [false] ∧
      (runEK .resolvesOnClose ekInit
        [.timerFires, .closeFires]).killInvocations = 1) ∧
    (runEK .resolvesOnClose ekInit
      [.closeFires, .timerFires]).resolveCalls = [true] ∧
    (runEK .resolvesOnClose ekInit
      [.closeFires, .timerFires]).killInvocations = 0 :=
  ⟨⟨by decide, c5_exitOrKill_race.2.2 .resolvesOnClose [.closeFires]
      (by decide)⟩,
    c5_exitOrKill_race.2.1 .resolvesOnClose [.timerFires]⟩

/-- C6: when the process is still live (no exit or signal code recorded) and
`serverProc.kill("SIGKILL")` returns `false`, `kill()` rejects with the
kill-failure error — the failure is reported to `kill`'s caller.  In
`exitOrKill`'s post-timeout branch, however, that rejection happens inside
the `setTimeout` callback's `await kill(...)`: the callback dies with an
unhandled rejection, `resolve(false)` is never reached, and `exitOrKill`'s
own promise — whose `reject` is wired only to the initial exit-command
send — never settles, so the failure is not reported to `exitOrKill`'s
caller (contrary to the interface documentation "Throws if the server
doesn't exit before timeoutMs and it cannot be killed"). -/
theorem c6_kill_failure :
    (∀ (c k : Bool), kill ⟨c, k, none, none⟩ false = .rejectedKillFailed) ∧
    (∀ (rest : List EKEvent),
      (runEK .rejectedKillFailed ekInit
        (.timerFires :: rest)).killInvocations = 1 ∧
      (runEK .rejectedKillFailed ekInit
        (.timerFires :: rest)).killRejected = true ∧
      (runEK .rejectedKillFailed ekInit
        (.timerFires :: rest)).resolveCalls = []) := by
  constructor
  · intro c k
    rfl
  · intro rest
    have hstep : ekStep .rejectedKillFailed ekInit .timerFires
        = ⟨true, false, false, [], 1, true⟩ := rfl
    unfold runEK
    rw [hstep]
    obtain ⟨ha, hb, hcr⟩ := runEK_afterTimeout .rejectedKillFailed rest
      ⟨true, false, false, [], 1, true⟩ rfl rfl
    exact ⟨hb, hcr, ha⟩

/-! ### Debug-port bumping claims -/

theorem dropPreCh?_appendSelf (xs r : List Char) :
    dropPreCh? xs (xs ++ r) = some r := by
  induction xs with
  | nil => rfl
  | cons x xs ih => simp [dropPreCh?, ih]

theorem dropPreCh?_sound : ∀ {p cs r : List Char},
    dropPreCh? p cs = some r → cs = p ++ r := by
  intro p
  induction p with
  | nil =>
    intro cs r h
    simp [dropPreCh?] at h
    simp [h]
  | cons x xs ih =>
    intro cs r h
    cases cs with
    | nil => simp [dropPreCh?] at h
    | cons c cs' =>
      simp only [dropPreCh?] at h
      by_cases hx : x = c
      · rw [if_pos hx] at h
        rw [← hx, ih h]
        rfl
      · rw [if_neg hx] at h
        cases h

theorem portTail?_sound {rest : List Char} {p : Option (List Char)}
    (h : portTail? rest = some p) :
    (p = none ∧ rest = []) ∨
    (∃ ds, p = some ds ∧ rest = '=' :: ds ∧ ds ≠ [] ∧
      ds.all isDigitCh = true) := by
  cases rest with
  | nil =>
    simp [portTail?] at h
    exact Or.inl ⟨h.symm, rfl⟩
  | cons c ds =>
    simp only [portTail?] at h
    by_cases hc : c = '='
    · rw [if_pos hc] at h
      by_cases hcond : (!ds.isEmpty && ds.all isDigitCh) = true
      · rw [if_pos hcond] at h
        simp only [Bool.and_eq_true, Bool.not_eq_true'] at hcond
        refine Or.inr ⟨ds, ?_, by rw [hc], ?_, hcond.2⟩
        · simp at h
          exact h.symm
        · intro hnil
          rw [hnil] at hcond
          simp at hcond
      · rw [if_neg hcond] at h
        cases h
    · rw [if_neg hc] at h
      cases h

/-- C10: when `launchServer` receives no explicit `execArgv`, each inherited
parent argument is passed through `bumpDebugPort`, which rewrites
`--inspect` / `--inspect-brk` with a numeric port suffix `=P` to use `P + 1`,
rewrites the bare forms to port `9230`, and leaves every other argument
unchanged.  (The port arithmetic is exact here; the source computes it as a
JavaScript number, which agrees for every port below 2^53.) -/
theorem c10_bumpDebugPort :
    (∀ ds : List Char, ds ≠ [] → ds.all isDigitCh = true →
      bumpDebugPort ⟨insChars ++ '=' :: ds⟩
          = ⟨insChars ++ '=' :: (Nat.repr (digitsChToNat ds + 1)).toList⟩ ∧
      bumpDebugPort ⟨brkChars ++ '=' :: ds⟩
          = ⟨brkChars ++ '=' :: (Nat.repr (digitsChToNat ds + 1)).toList⟩) ∧
    (bumpDebugPort "--inspect" = "--inspect=9230" ∧
      bumpDebugPort "--inspect-brk" = "--inspect-brk=9230") ∧
    (∀ arg : String,
      (¬∃ (pre : List Char) (tail : Option (List Char)),
        (pre = insChars ∨ pre = brkChars) ∧
        (match tail with
          | none => arg.toList = pre
          | some ds => arg.toList = pre ++ '=' :: ds ∧ ds ≠ [] ∧
              ds.all isDigitCh = true)) →
      bumpDebugPort arg = arg) ∧
    (∀ parent : List String,
      execArgvChosen none parent = parent.map bumpDebugPort) := by
  have hcondOf : ∀ (ds : List Char), ds ≠ [] → ds.all isDigitCh = true →
      (!ds.isEmpty && ds.all isDigitCh) = true := by
    intro ds hne hall
    cases ds with
    | nil => exact absurd rfl hne
    | cons d ds' => simp [hall]
  have hpt : ∀ (ds : List Char), ds ≠ [] → ds.all isDigitCh = true →
      portTail? ('=' :: ds) = some (some ds) := by
    intro ds hne hall
    show (if ('=' : Char) = '=' then
        (if (!ds.isEmpty && ds.all isDigitCh) = true then some (some ds)
          else none) else none) = some (some ds)
    rw [if_pos rfl, if_pos (hcondOf ds hne hall)]
  refine ⟨?_, ⟨rfl, rfl⟩, ?_, fun parent => rfl⟩
  · intro ds hne hall
    have hbrk : dropPreCh? brkChars (insChars ++ '=' :: ds) = none := rfl
    have hmIns : argMatch? (insChars ++ '=' :: ds)
        = some (insChars, some ds) := by
      simp only [argMatch?, hbrk, dropPreCh?_appendSelf, hpt ds hne hall]
      rfl
    have hmBrk : argMatch? (brkChars ++ '=' :: ds)
        = some (brkChars, some ds) := by
      simp only [argMatch?, dropPreCh?_appendSelf, hpt ds hne hall]
      rfl
    constructor
    · have htl : (⟨insChars ++ '=' :: ds⟩ : String).toList
          = insChars ++ '=' :: ds := rfl
      simp only [bumpDebugPort, htl, hmIns]
    · have htl : (⟨brkChars ++ '=' :: ds⟩ : String).toList
          = brkChars ++ '=' :: ds := rfl
      simp only [bumpDebugPort, htl, hmBrk]
  · intro arg hno
    cases hm : argMatch? arg.toList with
    | none => unfold bumpDebugPort; rw [hm]
    | some pr =>
      exfalso
      apply hno
      unfold argMatch? at hm
      cases hd1 : dropPreCh? brkChars arg.toList with
      | some rest =>
        rw [hd1] at hm
        simp only at hm
        cases hpt0 : portTail? rest with
        | none =>
          rw [hpt0] at hm
          cases hm
        | some p0 =>
          refine ⟨brkChars, p0, Or.inr rfl, ?_⟩
          rcases portTail?_sound hpt0 with ⟨hp, hrest⟩
            | ⟨ds, hp, hrest, hne, hall⟩
          · subst hp
            rw [dropPreCh?_sound hd1, hrest]
            simp
          · subst hp
            exact ⟨by rw [dropPreCh?_sound hd1, hrest], hne, hall⟩
      | none =>
        rw [hd1] at hm
        cases hd2 : dropPreCh? insChars arg.toList with
        | none => rw [hd2] at hm; cases hm
        | some rest =>
          rw [hd2] at hm
          simp only at hm
          cases hpt0 : portTail? rest with
          | none =>
            rw [hpt0] at hm
            cases hm
          | some p0 =>
            refine ⟨insChars, p0, Or.inl rfl, ?_⟩
            rcases portTail?_sound hpt0 with ⟨hp, hrest⟩
              | ⟨ds, hp, hrest, hne, hall⟩
            · subst hp
              rw [dropPreCh?_sound hd2, hrest]
              simp
            · subst hp
              exact ⟨by rw [dropPreCh?_sound hd2, hrest], hne, hall⟩

/-- Witness for C10: `--inspect=9229` is bumped to `--inspect=9230`, and an
unrelated argument passes through unchanged. -/
theorem c10_witness :
    bumpDebugPort ⟨insChars ++ '=' :: ['9', '2', '2', '9']⟩
      = ⟨insChars ++ '=' ::
          (Nat.repr (digitsChToNat ['9', '2', '2', '9'] + 1)).toList⟩ ∧
    bumpDebugPort "--foo" = "--foo" :=
  ⟨(c10_bumpDebugPort.1 ['9', '2', '2', '9'] (by decide) (by decide)).1,
    c10_bumpDebugPort.2.2.1 "--foo" (by
      rintro ⟨pre, tail, hpre, htail⟩
      cases tail with
      | none =>
        rcases hpre with h | h
        · subst h
          revert htail
          decide
        · subst h
          revert htail
          decide
      | some ds =>
        obtain ⟨heq, hne, hall⟩ := htail
        have hlen := congrArg List.length heq
        have h5 : ("--foo".toList).length = 5 := by decide
        rw [h5] at hlen
        rcases hpre with h | h
        · subst h
          simp [insChars] at hlen
        · subst h
          simp [brkChars, insChars] at hlen)⟩

end TSH
